import Mathlib

/-!
A shallow embedding of the Bakery work-item scraper and proofs about its
assembly pipeline.  The definitions mirror `src/api.rs`, `src/models.rs` and
`src/filesystem.rs`: pure Rust string processing becomes Lean functions on
`List Char`, the HTTP layer becomes an explicit oracle mapping each request to
its reply, and filesystem / random-number effects are threaded through an
explicit state record that logs every directory creation and file write.
-/

namespace Bakery

/-! ## Rust string primitives

Models of the `str` methods used by the source: `trim`, `lines`, `replace`,
`contains`, `split`, `trim_start_matches` and integer `Display` formatting.
All of them work on `List Char` so that proofs can proceed by structural
induction; `String` wrappers are provided where the source-level functions
take `String`.
-/

/-- Whitespace test used by Rust `char::is_whitespace` on the ASCII range. -/
def isWS (c : Char) : Bool :=
  c = ' ' || c = '\t' || c = '\n' || c = '\r'

/-- Model of Rust `str::trim_start` (on the ASCII whitespace range). -/
def trimL (cs : List Char) : List Char := cs.dropWhile isWS

/-- Model of Rust `str::trim_end`. -/
def trimR (cs : List Char) : List Char := ((cs.reverse).dropWhile isWS).reverse

/-- Model of Rust `str::trim`. -/
def rustTrim (cs : List Char) : List Char := trimR (trimL cs)

/-- Drop a single trailing carriage return, as Rust `str::lines` does. -/
def stripCR (cs : List Char) : List Char :=
  if cs.getLast? = some '\r' then cs.dropLast else cs

/-- Split at newline characters; always at least one (possibly empty) piece. -/
def splitOnNL : List Char → List (List Char)
  | [] => [[]]
  | c :: cs =>
    if c = '\n' then [] :: splitOnNL cs
    else
      match splitOnNL cs with
      | [] => [[c]]
      | l :: ls => (c :: l) :: ls

/-- Model of Rust `str::lines`: split at newlines, strip the carriage return
of a `\r\n` ending, and produce no empty trailing line for a
newline-terminated string. -/
def rustLinesCore (cs : List Char) : List (List Char) :=
  let ps := splitOnNL cs
  let init := ps.dropLast.map stripCR
  match ps.getLast? with
  | some last => if last = [] then init else init ++ [last]
  | none => init

/-- Join lines with single newline separators (model of `Vec::join("\n")`). -/
def joinLines : List (List Char) → List Char
  | [] => []
  | [l] => l
  | l :: ls => l ++ '\n' :: joinLines ls

/-- Worker for Rust `str::replace`: `skip` counts pattern characters still to
be consumed after a match was emitted, keeping the recursion structural. -/
def replaceAux (pat rep : List Char) : List Char → Nat → List Char
  | [], _ => []
  | _ :: cs, k + 1 => replaceAux pat rep cs k
  | c :: cs, 0 =>
    if pat.isPrefixOf (c :: cs) then rep ++ replaceAux pat rep cs (pat.length - 1)
    else c :: replaceAux pat rep cs 0

/-- Model of Rust `str::replace` for a non-empty pattern: replace every
non-overlapping occurrence, scanning left to right. -/
def rustReplace (s pat rep : List Char) : List Char := replaceAux pat rep s 0

/-- Substring occurrence test on character lists. -/
def infixAux (pat : List Char) : List Char → Bool
  | [] => pat.isEmpty
  | c :: cs => pat.isPrefixOf (c :: cs) || infixAux pat cs

/-- Model of Rust `str::contains` for string patterns. -/
def strContains (s pat : String) : Bool := infixAux pat.data s.data

/-- Decimal digit character. -/
def digitChar (n : Nat) : Char := Char.ofNat (48 + n)

/-- Decimal digits of a natural number, most significant first (fueled). -/
def digitsAux : Nat → Nat → List Char
  | 0, _ => []
  | fuel + 1, n =>
    if n < 10 then [digitChar n]
    else digitsAux fuel (n / 10) ++ [digitChar (n % 10)]

/-- Model of Rust integer `Display` formatting (`format!("{}", n)`). -/
def natToString (n : Nat) : String := String.mk (digitsAux (n + 1) n)

/-- Model of Rust `format!("{:03}", n)`: zero-pad to width three. -/
def pad3 (n : Nat) : String :=
  if n < 10 then "00" ++ natToString n
  else if n < 100 then "0" ++ natToString n
  else natToString n

/-! ## HTML fragment model (`scraper::Html::parse_fragment`)

`clean_html_content` in `models.rs` parses its input as an HTML fragment,
selects the elements `p, div, li, span, h1..h6` in document order and emits
each element's text content.  The fragment parser below models the html5ever
parse of well-formed fragments (properly nested, explicitly closed tags,
entity-free text); element attributes are skipped exactly as the selector
`text()` extraction never reads them.
-/

/-- Parsed HTML node: a text run or an element with child nodes. -/
inductive Node where
  | text (s : String)
  | elem (tag : String) (children : List Node)

/-- Characters allowed in a tag name. -/
def isTagChar (c : Char) : Bool := c.isAlpha || c.isDigit

/-- Fueled recursive-descent fragment parser.  Returns the nodes parsed up to
the next closing tag (or end of input) together with the unconsumed input. -/
def parseNodesAux : Nat → List Char → List Node × List Char
  | 0, cs => ([], cs)
  | _ + 1, [] => ([], [])
  | fuel + 1, c :: cs =>
    if c = '<' then
      match cs with
      | [] => ([], [c])
      | c2 :: cs2 =>
        if c2 = '/' then ([], c :: c2 :: cs2)
        else
          let name := (c2 :: cs2).takeWhile isTagChar
          let rest1 := ((c2 :: cs2).dropWhile (· ≠ '>')).drop 1
          let (children, rest2) := parseNodesAux fuel rest1
          let rest3 := (rest2.dropWhile (· ≠ '>')).drop 1
          let (siblings, rest4) := parseNodesAux fuel rest3
          (Node.elem (String.mk name) children :: siblings, rest4)
    else
      let txt := (c :: cs).takeWhile (· ≠ '<')
      let (siblings, rest2) := parseNodesAux fuel ((c :: cs).dropWhile (· ≠ '<'))
      (Node.text (String.mk txt) :: siblings, rest2)

/-- Parse an HTML fragment into its top-level node list. -/
def parseFragment (s : String) : List Node :=
  (parseNodesAux (s.length + 2) s.data).1

/-- Concatenated text content of a node list (model of scraper's
`element.text().collect::<String>()`), via an explicit work list. -/
def textOfNodes : Nat → List Node → List Char
  | 0, _ => []
  | _, [] => []
  | fuel + 1, Node.text s :: rest => s.data ++ textOfNodes fuel rest
  | fuel + 1, Node.elem _ cs :: rest => textOfNodes fuel (cs ++ rest)

/-- All elements of a node list in document (depth-first pre-) order, each
together with its children (model of scraper's `select` iteration). -/
def elemsOf : Nat → List Node → List (String × List Node)
  | 0, _ => []
  | _, [] => []
  | fuel + 1, Node.text _ :: rest => elemsOf fuel rest
  | fuel + 1, Node.elem t cs :: rest => (t, cs) :: elemsOf fuel (cs ++ rest)

/-- Tags matched by the selector `"p, div, li, span, h1, h2, h3, h4, h5, h6"`. -/
def selectedTags : List String :=
  ["p", "div", "li", "span", "h1", "h2", "h3", "h4", "h5", "h6"]

/-- Per-element output of the `clean_html_content` loop: list items get a
bullet, headings (tag starting with `h`) get bold markers and a leading
newline, everything else is emitted verbatim, each followed by a newline. -/
def fmtElem (tag : String) (text : List Char) : List Char :=
  if tag = "li" then '•' :: ' ' :: text ++ ['\n']
  else if tag.data.head? = some 'h' then '\n' :: '*' :: '*' :: text ++ '*' :: '*' :: ['\n']
  else text ++ ['\n']

/-- Body of the element loop in `clean_html_content`: trim each selected
element's text, skip empty ones, format the rest. -/
def cleanPieces (fuel : Nat) (elems : List (String × List Node)) : List Char :=
  (elems.filterMap (fun e =>
    let text := rustTrim (textOfNodes fuel e.2)
    if text = [] then none else some (fmtElem e.1 text))).flatten

/-- Final whitespace pass of `clean_html_content`: keep non-blank lines, join
with newlines, collapse triple newlines, trim. -/
def tidyLines (cs : List Char) : List Char :=
  rustTrim (rustReplace
    (joinLines ((rustLinesCore cs).filter (fun l => ¬ rustTrim l = [])))
    ('\n' :: '\n' :: ['\n']) ('\n' :: ['\n']))

/-- Model of `clean_html_content` from `models.rs`. -/
def clean_html_content (html_content : String) : String :=
  if html_content = "" then ""
  else
    let nodes := parseFragment html_content
    let fuel := html_content.length + 1
    let selected := (elemsOf fuel nodes).filter (fun e => selectedTags.contains e.1)
    String.mk (tidyLines (cleanPieces fuel selected))

/-- The single output line an element contributes to the cleaned text. -/
def fmtLine (tag : String) (txt : List Char) : List Char :=
  if tag = "li" then '•' :: ' ' :: txt
  else if tag.data.head? = some 'h' then '*' :: '*' :: txt ++ '*' :: '*' :: []
  else txt

/-- The raw lines an element's formatted piece spans (headings carry a
leading blank line that the blank-line filter later removes). -/
def elemLines (tag : String) (txt : List Char) : List (List Char) :=
  if tag = "li" then [fmtLine tag txt]
  else if tag.data.head? = some 'h' then [[], fmtLine tag txt]
  else [fmtLine tag txt]

/-- The parse tree of one flat element: a tag around an optional text run. -/
def mkNode (e : String × String) : Node :=
  Node.elem e.1 (if e.2 = "" then [] else [Node.text e.2])

/-- Characters of the HTML rendering of a list of flat elements. -/
def renderData : List (String × String) → List Char
  | [] => []
  | e :: rest =>
    '<' :: e.1.data ++ '>' :: e.2.data ++
      '<' :: '/' :: e.1.data ++ '>' :: renderData rest

/-- An HTML fragment made only of flat elements with text content. -/
def renderFlat (l : List (String × String)) : String := String.mk (renderData l)

/-! ## Acceptance-criteria extraction (`extract_acceptance_criteria`)

The source tries four regex patterns in order, but each pattern is built with
the look-ahead construct `(?=...)`, which the Rust `regex` engine rejects at
compile time; the `if let Ok(re) = Regex::new(pattern)` silently skips any
pattern that fails to compile.  The model keeps the pattern source text, the
compile gate, and the match semantics the pattern would have in an engine
with look-ahead support.
-/

/-- An acceptance-criteria pattern: its label literal and the regex source
text exactly as written in `models.rs`. -/
structure AcPattern where
  label : String
  sourceText : String
deriving DecidableEq

/-- The four patterns of `extract_acceptance_criteria`, in priority order. -/
def ac_patterns : List AcPattern :=
  [⟨"Acceptance Criteria:", "(?is)Acceptance Criteria:(.*?)(?=\\n\\n|\\n#|\\Z)"⟩,
   ⟨"AC:", "(?is)AC:(.*?)(?=\\n\\n|\\n#|\\Z)"⟩,
   ⟨"Requirements:", "(?is)Requirements:(.*?)(?=\\n\\n|\\n#|\\Z)"⟩,
   ⟨"User Story:", "(?is)User Story:(.*?)(?=\\n\\n|\\n#|\\Z)"⟩]

/-- Modelled behaviour of `regex::Regex::new`: the engine has no look-around
support, so a pattern containing the look-ahead opener fails to compile. -/
def regex_compiles (pat : String) : Bool := ¬ strContains pat "(?="

/-- ASCII lower-casing, for the `(?i)` flag. -/
def lowerChar (c : Char) : Char :=
  if 'A' ≤ c ∧ c ≤ 'Z' then Char.ofNat (c.toNat + 32) else c

/-- Case-insensitive list prefix test. -/
def ciIsPrefix : List Char → List Char → Bool
  | [], _ => true
  | _ :: _, [] => false
  | p :: ps, c :: cs => lowerChar p = lowerChar c && ciIsPrefix ps cs

/-- Remainder after the first case-insensitive occurrence of `pat`, if any
(leftmost match position of the labelled pattern). -/
def findCi (pat : List Char) : List Char → Option (List Char)
  | [] => none
  | c :: cs =>
    if ciIsPrefix pat (c :: cs) then some ((c :: cs).drop pat.length)
    else findCi pat cs

/-- Lazy capture of `(.*?)(?=\n\n|\n#|\Z)`: everything up to the first blank
line or markdown heading, or to the end of the text. -/
def ac_capture : List Char → List Char
  | [] => []
  | c :: cs =>
    if c = '\n' ∧ (cs.head? = some '\n' ∨ cs.head? = some '#') then []
    else c :: ac_capture cs

/-- Marker stripping applied to each captured line:
`line.trim().trim_start_matches('-').trim_start_matches('*')
.trim_start_matches('#').trim()`. -/
def strip_markers (line : List Char) : List Char :=
  rustTrim ((((rustTrim line).dropWhile (· = '-')).dropWhile (· = '*')).dropWhile (· = '#'))

/-- Line post-processing of a captured criteria block. -/
def process_criteria (captured : List Char) : List String :=
  ((((rustLinesCore captured).filter (fun l => ¬ rustTrim l = [])).map
      strip_markers).filter (fun l => ¬ l = [])).map String.mk

/-- One iteration of the pattern loop: `None` when the pattern fails to
compile or does not match the description. -/
def run_ac_pattern (p : AcPattern) (description : String) : Option (List Char) :=
  if regex_compiles p.sourceText then
    (findCi p.label.data description.data).map ac_capture
  else none

/-- The pattern loop of `extract_acceptance_criteria`. -/
def ac_loop : List AcPattern → String → List String
  | [], _ => []
  | p :: ps, d =>
    match run_ac_pattern p d with
    | some cap =>
      let criteria := process_criteria cap
      if ¬ criteria = [] then criteria else ac_loop ps d
    | none => ac_loop ps d

/-- Model of `extract_acceptance_criteria` from `models.rs`. -/
def extract_acceptance_criteria (description : String) : List String :=
  ac_loop ac_patterns description

/-- Modelled from the spec: the acceptance-criteria extraction the spec
describes, in which each of the four labelled patterns is usable (no compile
gate) and the first pattern producing a non-empty marker-stripped line list
wins. -/
def extract_acceptance_criteria_spec_loop : List AcPattern → String → List String
  | [], _ => []
  | p :: ps, d =>
    match (findCi p.label.data d.data).map ac_capture with
    | some cap =>
      let criteria := process_criteria cap
      if ¬ criteria = [] then criteria else extract_acceptance_criteria_spec_loop ps d
    | none => extract_acceptance_criteria_spec_loop ps d

/-- Modelled from the spec: top-level intended extraction. -/
def extract_acceptance_criteria_spec (description : String) : List String :=
  extract_acceptance_criteria_spec_loop ac_patterns description

/-! ## Inline image scanning

Both `extract_and_download_images` and `extract_and_download_images_from_text`
scan their text with the regex
`<img[^>]+src="([^"]+)"[^>]*(?:alt="([^"]*)")?[^>]*>`.
Under the engine's leftmost-first semantics the greedy `[^>]*` standing
before the optional `alt` group always swallows the rest of the tag, so the
`alt` capture never participates; the scan therefore yields the `src`
captures only.  The matcher below reproduces the greedy choice of the `[^>]+`
run (preferring the latest workable `src="` inside the tag) and the
non-overlapping left-to-right iteration of `captures_iter`.
-/

/-- Match `([^"]+)"[^>]*>` at the position just after `src="`: the non-empty
quote-free capture, then anything up to the closing `>`. -/
def afterSrc (after : List Char) : Option (String × List Char) :=
  let url := after.takeWhile (· ≠ '"')
  if url = [] then none
  else
    match after.drop url.length with
    | '"' :: rest1 =>
      match rest1.dropWhile (· ≠ '>') with
      | '>' :: rem => some (String.mk url, rem)
      | _ => none
    | _ => none

/-- Greedy search for the `src="` split point inside the `[^>]+` run that
follows `<img`, trying the longest run first. -/
def trySrcSplit (body : List Char) : Nat → Option (String × List Char)
  | 0 => none
  | i + 1 =>
    if (body.take (i + 1)).all (· ≠ '>') ∧
        ('s' :: 'r' :: 'c' :: '=' :: ['"']).isPrefixOf (body.drop (i + 1)) then
      match afterSrc (body.drop (i + 1 + 5)) with
      | some r => some r
      | none => trySrcSplit body i
    else trySrcSplit body i

/-- One attempted match starting at a `<img` occurrence. -/
def imgMatchAt (cs : List Char) : Option (String × List Char) :=
  let body := cs.drop 4
  trySrcSplit body body.length

/-- All `src` captures of the image regex over a text, leftmost first,
non-overlapping (fueled scan). -/
def scanImgsAux : Nat → List Char → List String
  | 0, _ => []
  | _ + 1, [] => []
  | fuel + 1, c :: cs =>
    if ('<' :: 'i' :: 'm' :: ['g']).isPrefixOf (c :: cs) then
      match imgMatchAt (c :: cs) with
      | some (url, rem) => url :: scanImgsAux fuel rem
      | none => scanImgsAux fuel cs
    else scanImgsAux fuel cs

/-- The `src` URLs the image regex extracts from a text, in order. -/
def scanImgs (text : String) : List String :=
  scanImgsAux (text.length + 1) text.data

/-! ## Data model (`models.rs`)

Timestamps are abstract instants (`Nat`); the ambient `Env` supplies the
clock, the two date parsers and the random-number source, all of which the
claims are independent of.  JSON field values are modelled by the only
observation the source makes of them, `as_str`.
-/

/-- A JSON value as observed through `serde_json::Value::as_str`. -/
inductive Json where
  | str (s : String)
  | nonstr
deriving DecidableEq

/-- Model of `Value::as_str`. -/
def Json.as_str : Json → Option String
  | .str s => some s
  | .nonstr => none

structure User where
  display_name : String
  email : String
  url : String
deriving DecidableEq

structure ImageReference where
  placeholder : String
  original_url : String
  local_path : String
  width : Option Nat
  height : Option Nat
  alt_text : Option String
deriving DecidableEq

structure Attachment where
  id : Nat
  filename : String
  url : String
  local_path : String
  content_type : String
  size : Nat
  created_date : Nat
deriving DecidableEq

structure Comment where
  id : Nat
  author : User
  created_date : Nat
  updated_date : Option Nat
  text : String
  images : List ImageReference
deriving DecidableEq

structure WorkItem where
  id : Nat
  title : String
  description : String
  acceptance_criteria : List String
  comments : List Comment
  attachments : List Attachment
  images : List ImageReference
  created_date : Nat
  updated_date : Nat
  created_by : User
  assigned_to : Option User
  state : String
  work_item_type : String
  area_path : String
  iteration_path : String
deriving DecidableEq

structure AzureRelationAttributes where
  name : Option String
  comment : Option String
  authorized_date : Option String
deriving DecidableEq

structure AzureRelation where
  rel : String
  url : String
  attributes : Option AzureRelationAttributes
deriving DecidableEq

structure AzureWorkItemResponse where
  id : Nat
  revision : Nat
  fields : List (String × Json)
  relations : Option (List AzureRelation)
  url : String
deriving DecidableEq

structure AzureUser where
  displayName : String
  url : String
deriving DecidableEq

structure AzureComment where
  id : Nat
  version : Nat
  text : String
  created_date : String
  updated_date : Option String
  author : AzureUser
deriving DecidableEq

structure AzureCommentsResponse where
  count : Nat
  value : List AzureComment
deriving DecidableEq

/-- Ambient effects the client consumes: the clock (`Utc::now`), the two
date-parsing routines, and `rand::random::<u32>` as a function of how many
random draws happened before. -/
structure Env where
  now : Nat
  parseRfc3339 : String → Option Nat
  parseUtcDate : String → Option Nat
  rand : Nat → Nat

/-- String field lookup in the Azure field bag
(`fields.get(k).and_then(|v| v.as_str())`). -/
def fieldStr (fields : List (String × Json)) (k : String) : Option String :=
  (fields.lookup k).bind Json.as_str

/-- Model of Rust `email.split('@').next().unwrap_or(email)`. -/
def beforeAt (email : String) : String :=
  ((email.splitOn "@").head?).getD email

/-- Field-bag user construction shared by `System.CreatedBy` and
`System.AssignedTo`. -/
def userOfEmail (email : String) : User :=
  { display_name := beforeAt email, email := email, url := "mailto:" ++ email }

/-- Model of `impl From<AzureWorkItemResponse> for WorkItem`. -/
def WorkItem.fromAzure (env : Env) (a : AzureWorkItemResponse) : WorkItem :=
  let description := (fieldStr a.fields "System.Description").getD ""
  { id := a.id
    title := (fieldStr a.fields "System.Title").getD ""
    description := description
    acceptance_criteria := extract_acceptance_criteria description
    comments := []
    attachments := []
    images := []
    created_date :=
      ((fieldStr a.fields "System.CreatedDate").bind env.parseRfc3339).getD env.now
    updated_date :=
      ((fieldStr a.fields "System.ChangedDate").bind env.parseRfc3339).getD env.now
    created_by :=
      ((fieldStr a.fields "System.CreatedBy").map userOfEmail).getD
        { display_name := "Unknown", email := "unknown@example.com", url := "" }
    assigned_to := (fieldStr a.fields "System.AssignedTo").map userOfEmail
    state := (fieldStr a.fields "System.State").getD ""
    work_item_type := (fieldStr a.fields "System.WorkItemType").getD ""
    area_path := (fieldStr a.fields "System.AreaPath").getD ""
    iteration_path := (fieldStr a.fields "System.IterationPath").getD "" }

/-! ## Network oracle and effect log (`api.rs`)

Each HTTP interaction is answered by the oracle `Net`.  A reply either fails
at `send()` (transport), or carries a status, the body as text, and the body
as it would come out of `.json::<T>()` — the latter can itself fail while the
body is read (transport) or while it is decoded (malformed JSON).  Local
filesystem operations are modelled as always succeeding (the tool assumes a
writable filesystem) and are recorded in an effect log, as are all issued
requests.
-/

/-- Outcome of reading and decoding a response body. -/
inductive BodyRead (α : Type) where
  | ok (a : α)
  | readError (msg : String)
  | parseError (msg : String)

/-- Outcome of one API request. -/
inductive HttpReply (α : Type) where
  | sendError (msg : String)
  | reply (status : Nat) (text : String) (body : BodyRead α)

/-- A reply to a raw binary download: status, the two headers the client
reads, and whether `bytes()` succeeds. -/
structure DlReply where
  status : Nat
  contentType : Option String
  contentLength : Option Nat
  bytesOk : Bool
deriving DecidableEq

inductive DlOutcome where
  | sendError (msg : String)
  | reply (r : DlReply)
deriving DecidableEq

/-- The network oracle: the work-item endpoint keyed by its expand query
string, the comments endpoint, and raw downloads keyed by URL. -/
structure Net where
  item : String → HttpReply AzureWorkItemResponse
  comments : HttpReply AzureCommentsResponse
  download : String → DlOutcome

/-- Status check (`reqwest::StatusCode::is_success`). -/
def isSuccess (status : Nat) : Bool := 200 ≤ status && status < 300

/-- Typed rendering of the `anyhow` errors produced by the client. -/
inductive Err where
  | connect (msg : String)
  | http (status : Nat) (text : String) (url : String)
  | jsonRead (msg : String)
  | jsonParse (msg : String)
  | sendErr (msg : String)
  | dlStatus (status : Nat)
  | dlBytes (msg : String)
deriving DecidableEq

/-- A filesystem effect. -/
inductive FsEv where
  | mkdir (path : String)
  | write (path : String)
deriving DecidableEq

/-- An issued request. -/
inductive ReqEv where
  | itemReq (expand : String)
  | commentsReq
  | downloadReq (url : String)
deriving DecidableEq

/-- Effect state threaded through the client: logs of filesystem effects and
issued requests, and the number of random draws so far. -/
structure St where
  fsLog : List FsEv
  reqLog : List ReqEv
  randCtr : Nat
deriving DecidableEq

def St.init : St := ⟨[], [], 0⟩

def St.req (s : St) (e : ReqEv) : St := { s with reqLog := s.reqLog ++ [e] }

def St.fs (s : St) (e : FsEv) : St := { s with fsLog := s.fsLog ++ [e] }

/-- The work-item request URL built by `get_work_item_raw`. -/
def item_url (org : String) (id : Nat) (expand : String) : String :=
  if expand = "" then
    "https://dev.azure.com/" ++ org ++ "/_apis/wit/workitems/" ++ natToString id
      ++ "?api-version=7.1"
  else
    "https://dev.azure.com/" ++ org ++ "/_apis/wit/workitems/" ++ natToString id
      ++ "?api-version=7.1&" ++ expand

/-- The comments request URL built by `get_work_item_comments`. -/
def comments_url (org : String) (id : Nat) : String :=
  "https://dev.azure.com/" ++ org ++ "/_apis/wit/workItems/" ++ natToString id
    ++ "/comments?api-version=7.1"

/-- Model of `AzureDevOpsClient::get_work_item_raw`. -/
def get_work_item_raw (net : Net) (org : String) (id : Nat) (expand : String)
    (s : St) : Except Err AzureWorkItemResponse × St :=
  let s := s.req (.itemReq expand)
  match net.item expand with
  | .sendError e => (.error (.connect e), s)
  | .reply status text body =>
    if isSuccess status then
      match body with
      | .ok p => (.ok p, s)
      | .readError m => (.error (.jsonRead m), s)
      | .parseError m => (.error (.jsonParse m), s)
    else (.error (.http status text (item_url org id expand)), s)

/-- The directory download_attachment writes into — hard-coded in `api.rs`. -/
def attachments_temp_dir : String := "X:/.OTCX/Tickets/temp/attachments"

/-- Model of `AzureDevOpsClient::download_attachment`. -/
def download_attachment (env : Env) (net : Net) (url filename : String)
    (s : St) : Except Err Attachment × St :=
  let s := s.req (.downloadReq url)
  match net.download url with
  | .sendError m => (.error (.sendErr m), s)
  | .reply r =>
    if isSuccess r.status then
      let content_type := r.contentType.getD "application/octet-stream"
      let size := r.contentLength.getD 0
      let local_path := attachments_temp_dir ++ "/" ++ filename
      let s := s.fs (.mkdir attachments_temp_dir)
      if r.bytesOk then
        let s := s.fs (.write local_path)
        (.ok
          { id := env.rand s.randCtr
            filename := filename
            url := url
            local_path := local_path
            content_type := content_type
            size := size
            created_date := env.now },
          { s with randCtr := s.randCtr + 1 })
      else (.error (.dlBytes "bytes"), s)
    else (.error (.dlStatus r.status), s)

/-- The relation-iteration loop of `extract_attachments`; a failed download
is logged and skipped. -/
def attachments_loop (env : Env) (net : Net) :
    List AzureRelation → St → List Attachment × St
  | [], s => ([], s)
  | rel :: rest, s =>
    if rel.rel = "AttachedFile" then
      match rel.attributes with
      | some attrs =>
        match attrs.name with
        | some filename =>
          match download_attachment env net rel.url filename s with
          | (.ok att, s1) =>
            let (l, s2) := attachments_loop env net rest s1
            (att :: l, s2)
          | (.error _, s1) => attachments_loop env net rest s1
        | none => attachments_loop env net rest s
      | none => attachments_loop env net rest s
    else attachments_loop env net rest s

/-- Model of `AzureDevOpsClient::extract_attachments`. -/
def extract_attachments (env : Env) (net : Net) (relations : List AzureRelation)
    (s : St) : Except Err (List Attachment) × St :=
  let (l, s1) := attachments_loop env net relations s
  (.ok l, s1)

/-- The placeholder filename for the nth successfully downloaded image:
`image{counter:03}.png` whatever the image format is. -/
def imagePlaceholder (counter : Nat) : String :=
  "image" ++ pad3 counter ++ ".png"

/-- Model of `AzureDevOpsClient::download_image`. -/
def download_image (net : Net) (url local_path : String) (s : St) :
    Except Err Unit × St :=
  let s := s.req (.downloadReq url)
  match net.download url with
  | .sendError m => (.error (.sendErr m), s)
  | .reply r =>
    if isSuccess r.status then
      if r.bytesOk then (.ok (), s.fs (.write local_path))
      else (.error (.dlBytes "bytes"), s)
    else (.error (.dlStatus r.status), s)

/-- The capture loop shared by both image extraction functions: keep only
Azure DevOps URLs, download each, number placeholders by a counter that
advances only after a successful download. -/
def images_loop (net : Net) (images_dir : String) :
    List String → Nat → St → List ImageReference × St
  | [], _, s => ([], s)
  | url :: rest, counter, s =>
    if strContains url "dev.azure.com" || strContains url "visualstudio.com" then
      let placeholder := imagePlaceholder counter
      let local_path := images_dir ++ "/" ++ placeholder
      match download_image net url local_path s with
      | (.ok _, s1) =>
        let (l, s2) := images_loop net images_dir rest (counter + 1) s1
        ({ placeholder := placeholder
           original_url := url
           local_path := local_path
           width := none
           height := none
           alt_text := none } :: l, s2)
      | (.error _, s1) => images_loop net images_dir rest counter s1
    else images_loop net images_dir rest counter s

/-- The per-item images directory — hard-coded in `api.rs`. -/
def item_images_dir (work_item_id : Nat) : String :=
  "X:/.OTCX/Tickets/" ++ natToString work_item_id ++ "/images"

/-- Model of `AzureDevOpsClient::extract_and_download_images`. -/
def extract_and_download_images (net : Net) (description : String)
    (work_item_id : Nat) (s : St) : Except Err (List ImageReference) × St :=
  let images_dir := item_images_dir work_item_id
  let s := s.fs (.mkdir images_dir)
  let (l, s1) := images_loop net images_dir (scanImgs description) 1 s
  (.ok l, s1)

/-- Model of `AzureDevOpsClient::extract_and_download_images_from_text`. -/
def extract_and_download_images_from_text (net : Net) (text : String)
    (work_item_id : Nat) (context : String) (s : St) :
    Except Err (List ImageReference) × St :=
  let images_dir := item_images_dir work_item_id ++ "/" ++ context
  let s := s.fs (.mkdir images_dir)
  let (l, s1) := images_loop net images_dir (scanImgs text) 1 s
  (.ok l, s1)

/-- Construction of one `Comment` from its payload, including the
`unwrap_or_default()` around the per-comment image extraction. -/
def build_comment (env : Env) (net : Net) (work_item_id : Nat)
    (c : AzureComment) (s : St) : Comment × St :=
  let (imgRes, s1) := extract_and_download_images_from_text net c.text
    work_item_id ("comment_" ++ natToString c.id) s
  ({ id := c.id
     author :=
       { display_name := c.author.displayName
         email := c.author.url
         url := c.author.url }
     created_date := (env.parseUtcDate c.created_date).getD env.now
     updated_date := c.updated_date.bind env.parseUtcDate
     text := c.text
     images := match imgRes with | .ok l => l | .error _ => [] }, s1)

/-- The comment-payload loop of `get_work_item_comments`. -/
def comments_loop (env : Env) (net : Net) (work_item_id : Nat) :
    List AzureComment → St → List Comment × St
  | [], s => ([], s)
  | c :: rest, s =>
    let (cm, s1) := build_comment env net work_item_id c s
    let (l, s2) := comments_loop env net work_item_id rest s1
    (cm :: l, s2)

/-- Model of `AzureDevOpsClient::get_work_item_comments`: a non-2xx status is
downgraded to the empty comment list. -/
def get_work_item_comments (env : Env) (net : Net) (work_item_id : Nat)
    (s : St) : Except Err (List Comment) × St :=
  let s := s.req .commentsReq
  match net.comments with
  | .sendError m => (.error (.sendErr m), s)
  | .reply status _ body =>
    if isSuccess status then
      match body with
      | .readError m => (.error (.jsonRead m), s)
      | .parseError m => (.error (.jsonParse m), s)
      | .ok payload =>
        let (l, s1) := comments_loop env net work_item_id payload.value s
        (.ok l, s1)
    else (.ok [], s)

/-- The expand query string used by the fallback item fetch. -/
def expandRelations : String := "$expand=Relations"

/-- Step 1 of assembly: the plain fetch with a single expand-fallback retry. -/
def fetch_with_fallback (net : Net) (org : String) (id : Nat) (s : St) :
    Except Err AzureWorkItemResponse × St :=
  match get_work_item_raw net org id "" s with
  | (.ok item, s1) => (.ok item, s1)
  | (.error _, s1) => get_work_item_raw net org id expandRelations s1

/-- Error propagation of the `?` operator on a fallible, state-threading
step: an error short-circuits, a success feeds the continuation. -/
def bindE {α β : Type} (r : Except Err α × St)
    (f : α → St → Except Err β × St) : Except Err β × St :=
  match r with
  | (.error e, s) => (.error e, s)
  | (.ok a, s) => f a s

/-- Model of `AzureDevOpsClient::get_work_item`, the whole assembly: fetch
(with expand fallback), field mapping, attachments, description images,
comments — each `?`-chained exactly as in `api.rs`. -/
def get_work_item (env : Env) (net : Net) (org : String) (id : Nat) (s : St) :
    Except Err WorkItem × St :=
  bindE (fetch_with_fallback net org id s) (fun work_item s1 =>
    let w0 := WorkItem.fromAzure env work_item
    bindE (match work_item.relations with
           | some rels => extract_attachments env net rels s1
           | none => (.ok [], s1)) (fun atts s2 =>
      bindE (extract_and_download_images net w0.description id s2)
        (fun imgs s3 =>
        bindE (get_work_item_comments env net id s3) (fun cs s4 =>
          (.ok { w0 with attachments := atts, images := imgs, comments := cs },
            s4)))))

/-! ## Filesystem organizer paths (`filesystem.rs`, `config.rs`) -/

/-- `FileSystemOrganizer::new` derives the tickets root from the configured
base path. -/
def tickets_path (base_path : String) : String := base_path ++ "/Tickets"

/-- The per-item directory `save_work_item` writes into. -/
def ticket_dir (base_path : String) (id : Nat) : String :=
  tickets_path base_path ++ "/" ++ natToString id

/-- The attachment manifest path written by `save_attachment_manifest`. -/
def attachment_manifest_path (base_path : String) (id : Nat) : String :=
  ticket_dir base_path id ++ "/attachments/manifest.json"

/-- The image manifest path written by `save_image_manifest`. -/
def image_manifest_path (base_path : String) (id : Nat) : String :=
  ticket_dir base_path id ++ "/images/manifest.json"

/-- Paths of the file-write events in an effect log. -/
def writesOf (l : List FsEv) : List String :=
  l.filterMap (fun e => match e with | .write p => some p | .mkdir _ => none)

/-- A relation the attachment loop skips silently: kind `AttachedFile` but
with no attributes object or no filename. -/
def namelessAttachedFile (r : AzureRelation) : Bool :=
  r.rel == "AttachedFile" &&
    (match r.attributes with
     | none => true
     | some a => a.name.isNone)

/-- Decimal value of a digit string (decoder used to invert `digitsAux`). -/
def valDigits (cs : List Char) : Nat :=
  cs.foldl (fun a c => a * 10 + (c.toNat - 48)) 0

/-- The filenames of the relations the attachment pass would download: kind
`AttachedFile` with a present `attributes.name`. -/
def attachedNames (rels : List AzureRelation) : List String :=
  rels.filterMap (fun r =>
    if r.rel = "AttachedFile" then r.attributes.bind (fun a => a.name) else none)

/-- Is this request an item fetch? -/
def ReqEv.isItem : ReqEv → Bool
  | .itemReq _ => true
  | _ => false

/-- The request log grows only by non-item requests between two states. -/
def reqExtendsNoItem (s t : St) : Prop :=
  ∃ d, t.reqLog = s.reqLog ++ d ∧ ∀ e ∈ d, e.isItem = false

/-- The comment fetch fails at the transport level: `send()` fails, or the
2xx body cannot be read off the wire. -/
def commentTransportFails (net : Net) : Bool :=
  match net.comments with
  | .sendError _ => true
  | .reply status _ (.readError _) => isSuccess status
  | .reply _ _ _ => false

/-- The comment fetch returns a 2xx reply whose body fails to decode. -/
def commentParseFails (net : Net) : Bool :=
  match net.comments with
  | .reply status _ (.parseError _) => isSuccess status
  | _ => false

/-! ## Concrete runs used as witnesses and counterexamples -/

/-- A trivial ambient environment. -/
def env0 : Env := ⟨0, fun _ => none, fun _ => none, fun n => n⟩

/-- An empty work-item payload. -/
def payloadEmpty : AzureWorkItemResponse := ⟨1, 1, [], none, "wurl"⟩

/-- Text with three inline Azure DevOps images. -/
def txtC5 : String :=
  "<img src=\"https://dev.azure.com/a.png\"><img src=\"https://dev.azure.com/b.png\"><img src=\"https://dev.azure.com/c.png\">"

/-- A network where the middle image download fails and the others succeed. -/
def netC5 : Net :=
  ⟨fun _ => .sendError "unused",
   .sendError "unused",
   fun u => if u = "https://dev.azure.com/b.png" then .sendError "down"
            else .reply ⟨200, none, none, true⟩⟩

/-- The image references produced by the `netC5` run on `txtC5`. -/
def imgsC5 : List ImageReference :=
  [⟨"image001.png", "https://dev.azure.com/a.png",
    "X:/.OTCX/Tickets/5/images/image001.png", none, none, none⟩,
   ⟨"image002.png", "https://dev.azure.com/c.png",
    "X:/.OTCX/Tickets/5/images/image002.png", none, none, none⟩]

/-- A network whose item fetch succeeds and whose comments endpoint returns a
2xx reply with a body that fails to decode as JSON. -/
def netC1 : Net :=
  ⟨fun _ => .reply 200 "" (.ok payloadEmpty),
   .reply 200 "not json" (.parseError "malformed"),
   fun _ => .sendError "unused"⟩

/-- A network whose item fetch succeeds and whose comments endpoint replies
with one well-formed empty comment page. -/
def netC1ok : Net :=
  ⟨fun _ => .reply 200 "" (.ok payloadEmpty),
   .reply 200 "" (.ok ⟨0, []⟩),
   fun _ => .sendError "unused"⟩

/-- The raw description of the end-to-end scenario item 42. -/
def desc42 : String :=
  "<p>Do X</p><p>Acceptance Criteria:\nmust do X\nmust log Y</p>"

/-- The payload of scenario item 42: two `AttachedFile` relations. -/
def payload42 : AzureWorkItemResponse :=
  ⟨42, 1, [("System.Title", .str "T"), ("System.Description", .str desc42)],
   some [⟨"AttachedFile", "u1", some ⟨some "a.txt", none, none⟩⟩,
         ⟨"AttachedFile", "u2", some ⟨some "b.txt", none, none⟩⟩], "wurl"⟩

/-- The scenario network: first attachment reachable, second returns 500,
comments endpoint denied. -/
def netC2 : Net :=
  ⟨fun _ => .reply 200 "" (.ok payload42),
   .reply 403 "denied" (.readError "never read"),
   fun u => if u = "u1" then .reply ⟨200, some "text/plain", some 10, true⟩
            else .reply ⟨500, none, none, true⟩⟩

/-- A network whose comments endpoint returns HTTP 403. -/
def netC6 : Net :=
  ⟨fun _ => .reply 200 "" (.ok payloadEmpty),
   .reply 403 "denied" (.ok ⟨0, []⟩),
   fun _ => .sendError "unused"⟩

/-- A network whose item endpoint returns HTTP 404 with and without the
relations expansion. -/
def netC7 : Net :=
  ⟨fun _ => .reply 404 "nf" (.ok payloadEmpty),
   .reply 200 "" (.ok ⟨0, []⟩),
   fun _ => .sendError "unused"⟩

/-- A network where every raw download succeeds. -/
def netDl : Net :=
  ⟨fun _ => .sendError "unused",
   .sendError "unused",
   fun _ => .reply ⟨200, none, none, true⟩⟩

/-- Two `AttachedFile` relations with different URLs but the same filename. -/
def relsC9 : List AzureRelation :=
  [⟨"AttachedFile", "u1", some ⟨some "a.txt", none, none⟩⟩,
   ⟨"AttachedFile", "u2", some ⟨some "a.txt", none, none⟩⟩]

/-- Two `AttachedFile` relations with distinct filenames. -/
def relsC9b : List AzureRelation :=
  [⟨"AttachedFile", "u1", some ⟨some "a.txt", none, none⟩⟩,
   ⟨"AttachedFile", "u2", some ⟨some "b.txt", none, none⟩⟩]

/-- A concrete flat fragment: paragraph, list item, heading and a
whitespace-only span. -/
def flatC4 : List (String × String) :=
  [("p", "a"), ("li", "b"), ("h2", "c"), ("span", " ")]

/-! ## Helper lemmas -/

theorem St.fsLog_req (s : St) (e : ReqEv) : (s.req e).fsLog = s.fsLog := rfl

theorem St.reqLog_fs (s : St) (e : FsEv) : (s.fs e).reqLog = s.reqLog := rfl

theorem download_image_fsLog_ok (net : Net) (url p : String) (s : St) (x : Unit)
    (s1 : St) (h : download_image net url p s = (.ok x, s1)) :
    s1.fsLog = s.fsLog ++ [FsEv.write p] := by
  unfold download_image at h
  rcases hd : net.download url with m | r <;> rw [hd] at h
  · exact absurd (congrArg Prod.fst h) (by simp)
  · by_cases hs : isSuccess r.status = true
    · by_cases hb : r.bytesOk = true
      · simp only [hs, hb, if_true] at h
        cases h
        simp [St.fs, St.req]
      · simp [hs, hb] at h
    · simp [hs] at h

theorem download_image_fsLog_err (net : Net) (url p : String) (s : St) (e : Err)
    (s1 : St) (h : download_image net url p s = (.error e, s1)) :
    s1.fsLog = s.fsLog := by
  unfold download_image at h
  rcases hd : net.download url with m | r <;> rw [hd] at h
  · cases h; rfl
  · by_cases hs : isSuccess r.status = true
    · by_cases hb : r.bytesOk = true
      · simp [hs, hb] at h
      · simp only [hs, hb, if_true, if_false] at h
        cases h; rfl
    · simp only [hs, if_false] at h
      cases h; rfl

theorem images_loop_spec (net : Net) (dir : String) :
    ∀ (urls : List String) (c : Nat) (s : St),
      ((images_loop net dir urls c s).1).map ImageReference.placeholder =
        (List.range ((images_loop net dir urls c s).1).length).map
          (fun i => imagePlaceholder (c + i)) ∧
      ((images_loop net dir urls c s).1).map ImageReference.local_path =
        (List.range ((images_loop net dir urls c s).1).length).map
          (fun i => dir ++ "/" ++ imagePlaceholder (c + i)) := by
  intro urls
  induction urls with
  | nil => intro c s; simp [images_loop]
  | cons url rest ih =>
    intro c s
    by_cases hdom :
        (strContains url "dev.azure.com" || strContains url "visualstudio.com") = true
    · rcases hdl : download_image net url (dir ++ "/" ++ imagePlaceholder c) s
        with ⟨res, s1⟩
      cases res with
      | ok u =>
        have hih := ih (c + 1) s1
        simp only [images_loop, hdom, if_true, hdl]
        constructor
        · rw [List.map_cons, List.length_cons, List.range_succ_eq_map,
            List.map_cons, List.map_map, hih.1]
          simp only [List.cons_eq_cons, Nat.add_zero]
          refine ⟨trivial, List.map_congr_left ?_⟩
          intro i hi
          show imagePlaceholder (c + 1 + i) = imagePlaceholder (c + (i + 1))
          rw [(by omega : c + 1 + i = c + (i + 1))]
        · rw [List.map_cons, List.length_cons, List.range_succ_eq_map,
            List.map_cons, List.map_map, hih.2]
          simp only [List.cons_eq_cons, Nat.add_zero]
          refine ⟨trivial, List.map_congr_left ?_⟩
          intro i hi
          show dir ++ "/" ++ imagePlaceholder (c + 1 + i) =
            dir ++ "/" ++ imagePlaceholder (c + (i + 1))
          rw [(by omega : c + 1 + i = c + (i + 1))]
      | error e =>
        have hih := ih c s1
        simpa only [images_loop, hdom, if_true, hdl] using hih
    · have hih := ih c s
      simpa only [images_loop, hdom, if_false, Bool.not_eq_true] using hih

theorem images_loop_fsLog (net : Net) (dir : String) :
    ∀ (urls : List String) (c : Nat) (s : St),
      ((images_loop net dir urls c s).2).fsLog =
        s.fsLog ++
          ((images_loop net dir urls c s).1).map (fun r => FsEv.write r.local_path) := by
  intro urls
  induction urls with
  | nil => intro c s; simp [images_loop]
  | cons url rest ih =>
    intro c s
    by_cases hdom :
        (strContains url "dev.azure.com" || strContains url "visualstudio.com") = true
    · rcases hdl : download_image net url (dir ++ "/" ++ imagePlaceholder c) s
        with ⟨res, s1⟩
      cases res with
      | ok u =>
        have hw := download_image_fsLog_ok net url _ s u s1 hdl
        have hih := ih (c + 1) s1
        simp only [images_loop, hdom, if_true, hdl]
        rw [hih, hw]
        simp
      | error e =>
        have hw := download_image_fsLog_err net url _ s e s1 hdl
        have hih := ih c s1
        simp only [images_loop, hdom, if_true, hdl]
        rw [hih, hw]
    · have hih := ih c s
      simpa only [images_loop, hdom, if_false, Bool.not_eq_true] using hih

/-- Claim C5: within one image-extraction pass (an item description or a
single comment's text), the placeholder numbers of the returned
ImageReferences are consecutive starting at 1 — strictly increasing and
gapless, counting only successful downloads (a failed download does not
consume a number) — and every placeholder is named `image{counter:03}.png`
regardless of the actual image format. -/
theorem C5_image_placeholder_numbering (net : Net) (text : String) (id : Nat)
    (context : String) (s t : St) :
    (∀ imgs, (extract_and_download_images net text id s).1 = .ok imgs →
      imgs.map ImageReference.placeholder =
        (List.range imgs.length).map (fun i => imagePlaceholder (1 + i))) ∧
    (∀ imgs,
      (extract_and_download_images_from_text net text id context t).1 = .ok imgs →
      imgs.map ImageReference.placeholder =
        (List.range imgs.length).map (fun i => imagePlaceholder (1 + i))) := by
  constructor
  · intro imgs h
    have hr : (extract_and_download_images net text id s).1 =
        .ok ((images_loop net (item_images_dir id) (scanImgs text) 1
          (s.fs (.mkdir (item_images_dir id)))).1) := rfl
    rw [hr] at h
    cases h
    exact (images_loop_spec net (item_images_dir id) (scanImgs text) 1
      (s.fs (.mkdir (item_images_dir id)))).1
  · intro imgs h
    have hr : (extract_and_download_images_from_text net text id context t).1 =
        .ok ((images_loop net (item_images_dir id ++ "/" ++ context)
          (scanImgs text) 1
          (t.fs (.mkdir (item_images_dir id ++ "/" ++ context)))).1) := rfl
    rw [hr] at h
    cases h
    exact (images_loop_spec net (item_images_dir id ++ "/" ++ context)
      (scanImgs text) 1
      (t.fs (.mkdir (item_images_dir id ++ "/" ++ context)))).1

/-- Closed instance of the numbering theorem: three inline images of which
the middle download fails produce placeholders image001.png, image002.png. -/
theorem C5_image_placeholder_numbering_witness :
    (extract_and_download_images netC5 txtC5 5 St.init).1 = .ok imgsC5 ∧
    imgsC5.map ImageReference.placeholder =
      (List.range imgsC5.length).map (fun i => imagePlaceholder (1 + i)) := by
  have h : (extract_and_download_images netC5 txtC5 5 St.init).1 = .ok imgsC5 := by
    rfl
  exact ⟨h,
    (C5_image_placeholder_numbering netC5 txtC5 5 "c" St.init St.init).1 imgsC5 h⟩

theorem attachments_loop_filter (env : Env) (net : Net) :
    ∀ (rels : List AzureRelation) (s : St),
      attachments_loop env net rels s =
        attachments_loop env net
          (rels.filter (fun r => !namelessAttachedFile r)) s := by
  intro rels
  induction rels with
  | nil => intro s; rfl
  | cons r rest ih =>
    intro s
    by_cases hrel : r.rel = "AttachedFile"
    · cases hattr : r.attributes with
      | none =>
        have hskip : (!namelessAttachedFile r) = false := by
          simp [namelessAttachedFile, hrel, hattr]
        have h1 : attachments_loop env net (r :: rest) s =
            attachments_loop env net rest s := by
          simp [attachments_loop, hrel, hattr]
        rw [h1, List.filter_cons, hskip]
        rw [if_neg (by decide)]
        exact ih s
      | some a =>
        cases hname : a.name with
        | none =>
          have hskip : (!namelessAttachedFile r) = false := by
            simp [namelessAttachedFile, hrel, hattr, hname]
          have h1 : attachments_loop env net (r :: rest) s =
              attachments_loop env net rest s := by
            simp [attachments_loop, hrel, hattr, hname]
          rw [h1, List.filter_cons, hskip]
          rw [if_neg (by decide)]
          exact ih s
        | some fn =>
          have hkeep : (!namelessAttachedFile r) = true := by
            simp [namelessAttachedFile, hattr, hname]
          rw [List.filter_cons, hkeep, if_pos rfl]
          rcases hdl : download_attachment env net r.url fn s with ⟨res, s1⟩
          cases res with
          | ok att =>
            simp only [attachments_loop, hrel, if_pos, hattr, hname, hdl]
            rw [ih s1]
          | error e =>
            simp only [attachments_loop, hrel, if_pos, hattr, hname, hdl]
            exact ih s1
    · have hkeep : (!namelessAttachedFile r) = true := by
        simp [namelessAttachedFile, hrel]
      rw [List.filter_cons, hkeep, if_pos rfl]
      have h1 : attachments_loop env net (r :: rest) s =
          attachments_loop env net rest s := by
        simp [attachments_loop, hrel]
      have h2 : attachments_loop env net
          (r :: rest.filter (fun r => !namelessAttachedFile r)) s =
          attachments_loop env net
            (rest.filter (fun r => !namelessAttachedFile r)) s := by
        simp [attachments_loop, hrel]
      rw [h1, h2]
      exact ih s

/-- Claim C10: an `AttachedFile` relation with no attributes object or no
`attributes.name` is skipped silently — the attachment pass behaves exactly
as if that relation were absent (so no download is attempted for its URL, no
Attachment is produced for it and no effect is recorded), and the pass as a
whole never produces an error. -/
theorem C10_nameless_attachment_relations_skipped (env : Env) (net : Net)
    (rels : List AzureRelation) (s : St) :
    extract_attachments env net rels s =
      extract_attachments env net
        (rels.filter (fun r => !namelessAttachedFile r)) s ∧
    ∃ l, (extract_attachments env net rels s).1 = .ok l := by
  constructor
  · show (Except.ok (attachments_loop env net rels s).1,
        (attachments_loop env net rels s).2) =
      (Except.ok (attachments_loop env net
          (rels.filter (fun r => !namelessAttachedFile r)) s).1,
        (attachments_loop env net
          (rels.filter (fun r => !namelessAttachedFile r)) s).2)
    rw [← attachments_loop_filter]
  · exact ⟨(attachments_loop env net rels s).1, rfl⟩

/-- Claim C3 (the code side): every acceptance-criteria pattern contains the
look-ahead construct `(?=`, the regex engine rejects it, and the silent
`if let Ok` swallow makes `extract_acceptance_criteria` return `[]` for
every description — while the spec-modelled semantics of the first pattern
on a labelled description returns its marker-stripped lines. -/
theorem C3_acceptance_patterns_never_compile :
    (∀ d, extract_acceptance_criteria d = []) ∧
    extract_acceptance_criteria
      "Acceptance Criteria:\n- must do X\n- must log Y\n\nrest" = [] ∧
    extract_acceptance_criteria_spec
      "Acceptance Criteria:\n- must do X\n- must log Y\n\nrest" =
      ["must do X", "must log Y"] := by
  have h1 : regex_compiles "(?is)Acceptance Criteria:(.*?)(?=\\n\\n|\\n#|\\Z)" = false := by
    decide
  have h2 : regex_compiles "(?is)AC:(.*?)(?=\\n\\n|\\n#|\\Z)" = false := by decide
  have h3 : regex_compiles "(?is)Requirements:(.*?)(?=\\n\\n|\\n#|\\Z)" = false := by
    decide
  have h4 : regex_compiles "(?is)User Story:(.*?)(?=\\n\\n|\\n#|\\Z)" = false := by
    decide
  refine ⟨?_, ?_, by rfl⟩
  · intro d
    simp [extract_acceptance_criteria, ac_loop, ac_patterns, run_ac_pattern,
      h1, h2, h3, h4]
  · rfl

/-- Claim C2 (the code side): the end-to-end scenario item 42 produces one
attachment (the 500 download is skipped) and the claimed cleaned description,
but its acceptance criteria come out empty because no criteria pattern ever
compiles. -/
theorem C2_scenario_item42 :
    ((get_work_item env0 netC2 "org" 42 St.init).1).map
      (fun w => (w.attachments.length, w.acceptance_criteria,
        clean_html_content w.description, w.description)) =
    Except.ok (1, ([] : List String),
      "Do X\nAcceptance Criteria:\nmust do X\nmust log Y", desc42) := by
  rfl

/-- Claim C8 (the code side): attachment bytes are written under the
hard-coded shared directory `X:/.OTCX/Tickets/temp/attachments`, not under
the per-item directory of the configured tickets root — not even when the
configured root coincides with the hard-coded one — while the manifest goes
under the per-item directory. -/
theorem C8_attachment_files_outside_item_directory :
    (download_attachment env0 netDl "u" "a.txt" St.init).2.fsLog =
      [.mkdir attachments_temp_dir,
       .write "X:/.OTCX/Tickets/temp/attachments/a.txt"] ∧
    attachment_manifest_path "C:/DevOpsData" 7 =
      "C:/DevOpsData/Tickets/7/attachments/manifest.json" ∧
    (ticket_dir "C:/DevOpsData" 7).data.isPrefixOf
        "X:/.OTCX/Tickets/temp/attachments/a.txt".data = false ∧
    (ticket_dir "X:/.OTCX" 7).data.isPrefixOf
        "X:/.OTCX/Tickets/temp/attachments/a.txt".data = false := by
  exact ⟨rfl, rfl, by decide, by decide⟩

theorem get_work_item_comments_ok (env : Env) (net : Net) (id : Nat)
    (h2 : commentTransportFails net = false)
    (h3 : commentParseFails net = false) (t : St) :
    ∃ l t1, get_work_item_comments env net id t = (.ok l, t1) := by
  unfold get_work_item_comments
  unfold commentTransportFails at h2
  unfold commentParseFails at h3
  rcases hc : net.comments with m | ⟨st, tx, body⟩ <;> rw [hc] at h2 h3
  · simp at h2
  · by_cases hs : isSuccess st = true
    · cases body with
      | ok p =>
        refine ⟨(comments_loop env net id p.value (t.req .commentsReq)).1,
          (comments_loop env net id p.value (t.req .commentsReq)).2, ?_⟩
        simp only [hs, if_true]
      | readError m => simp [hs] at h2
      | parseError m => simp [hs] at h3
    · refine ⟨[], t.req .commentsReq, ?_⟩
      simp [hs]

theorem bindE_ok {α β : Type} (a : α) (s : St)
    (f : α → St → Except Err β × St) : bindE (.ok a, s) f = f a s := rfl

theorem bindE_err {α β : Type} (e : Err) (s : St)
    (f : α → St → Except Err β × St) : bindE (.error e, s) f = (.error e, s) := rfl

theorem extract_attachments_eq (env : Env) (net : Net)
    (rels : List AzureRelation) (s : St) :
    extract_attachments env net rels s =
      (.ok (attachments_loop env net rels s).1,
       (attachments_loop env net rels s).2) := rfl

theorem extract_images_eq (net : Net) (d : String) (id : Nat) (s : St) :
    extract_and_download_images net d id s =
      (.ok ((images_loop net (item_images_dir id) (scanImgs d) 1
          (s.fs (.mkdir (item_images_dir id)))).1),
       (images_loop net (item_images_dir id) (scanImgs d) 1
          (s.fs (.mkdir (item_images_dir id)))).2) := rfl

theorem bindE_comments_total (env : Env) (net : Net) (id : Nat)
    (h2 : commentTransportFails net = false)
    (h3 : commentParseFails net = false) (t : St)
    (f : List Comment → St → Except Err WorkItem × St)
    (hf : ∀ cs s4, ∃ w, (f cs s4).1 = .ok w) :
    ∃ w, (bindE (get_work_item_comments env net id t) f).1 = .ok w := by
  obtain ⟨l, t1, hcom⟩ := get_work_item_comments_ok env net id h2 h3 t
  rw [hcom, bindE_ok]
  exact hf l t1

/-- Claim C1 (amended): when step 1 succeeds (the item fetch, after its
expand fallback), the comment fetch does not fail at the transport level AND
the 2xx comments body decodes, assembly returns a WorkItem rather than an
error — failed attachment downloads, failed image downloads and non-2xx
comment replies are all caught and only omit their element. -/
theorem C1_assembly_totality_amended (env : Env) (net : Net) (org : String)
    (id : Nat) (s : St) (item : AzureWorkItemResponse) (s1 : St)
    (hfetch : fetch_with_fallback net org id s = (.ok item, s1))
    (h2 : commentTransportFails net = false)
    (h3 : commentParseFails net = false) :
    ∃ w, (get_work_item env net org id s).1 = .ok w := by
  unfold get_work_item
  rw [hfetch, bindE_ok]
  cases hrelv : item.relations with
  | none =>
    simp only [hrelv, bindE_ok, extract_images_eq]
    exact bindE_comments_total env net id h2 h3 _ _ (fun cs s4 => ⟨_, rfl⟩)
  | some rels =>
    simp only [hrelv, extract_attachments_eq, bindE_ok, extract_images_eq]
    exact bindE_comments_total env net id h2 h3 _ _ (fun cs s4 => ⟨_, rfl⟩)

/-- Counterexample to claim C1 as frozen: with `netC1` the item fetch
succeeds and the comment fetch does not fail at the transport level, yet the
whole assembly fails, because the 2xx comments body fails to decode — a
failure mode the claim does not allow. -/
theorem C1_assembly_totality_counterexample :
    (fetch_with_fallback netC1 "org" 1 St.init).1 = .ok payloadEmpty ∧
    commentTransportFails netC1 = false ∧
    (get_work_item env0 netC1 "org" 1 St.init).1 =
      .error (.jsonParse "malformed") := by
  exact ⟨rfl, rfl, rfl⟩

/-- Closed instance of the amended claim C1 on a healthy comments endpoint. -/
theorem C1_assembly_totality_witness :
    fetch_with_fallback netC1ok "org" 1 St.init =
      (.ok payloadEmpty, St.init.req (.itemReq "")) ∧
    commentTransportFails netC1ok = false ∧
    commentParseFails netC1ok = false ∧
    ∃ w, (get_work_item env0 netC1ok "org" 1 St.init).1 = .ok w :=
  ⟨rfl, rfl, rfl,
    C1_assembly_totality_amended env0 netC1ok "org" 1 St.init payloadEmpty
      (St.init.req (.itemReq "")) rfl rfl rfl⟩

/-- Claim C6: when the item fetch succeeds and the comments endpoint replies
with any non-2xx status, the comment fetch returns the empty list rather
than an error, and the assembled WorkItem has `comments = []` with no
overall failure. -/
theorem C6_non2xx_comments_degrade_to_empty (env : Env) (net : Net)
    (org : String) (id : Nat) (s : St) (item : AzureWorkItemResponse)
    (s1 : St) (status : Nat) (text : String)
    (body : BodyRead AzureCommentsResponse)
    (hfetch : fetch_with_fallback net org id s = (.ok item, s1))
    (hc : net.comments = .reply status text body)
    (hs : isSuccess status = false) :
    (∀ t, (get_work_item_comments env net id t).1 = .ok []) ∧
    ((get_work_item env net org id s).1).map (fun w => w.comments) =
      .ok [] := by
  have hcom : ∀ t : St,
      get_work_item_comments env net id t = (.ok [], t.req .commentsReq) := by
    intro t
    unfold get_work_item_comments
    rw [hc]
    simp [hs]
  refine ⟨fun t => by rw [hcom t], ?_⟩
  unfold get_work_item
  rw [hfetch, bindE_ok]
  cases hrelv : item.relations with
  | none =>
    simp only [hrelv, bindE_ok, extract_images_eq, hcom]
    rfl
  | some rels =>
    simp only [hrelv, extract_attachments_eq, bindE_ok, extract_images_eq, hcom]
    rfl

/-- Closed instance of claim C6 at a comments endpoint answering HTTP 403. -/
theorem C6_non2xx_comments_degrade_to_empty_witness :
    netC6.comments = .reply 403 "denied" (.ok ⟨0, []⟩) ∧ isSuccess 403 = false ∧
    ((get_work_item env0 netC6 "org" 3 St.init).1).map (fun w => w.comments) =
      .ok [] :=
  ⟨rfl, rfl,
    (C6_non2xx_comments_degrade_to_empty env0 netC6 "org" 3 St.init
      payloadEmpty (St.init.req (.itemReq "")) 403 "denied" (.ok ⟨0, []⟩)
      rfl rfl rfl).2⟩

theorem reqExtendsNoItem.refl (s : St) : reqExtendsNoItem s s :=
  ⟨[], by simp, by simp⟩

theorem reqExtendsNoItem.trans {s t u : St} (h1 : reqExtendsNoItem s t)
    (h2 : reqExtendsNoItem t u) : reqExtendsNoItem s u := by
  obtain ⟨d1, he1, hn1⟩ := h1
  obtain ⟨d2, he2, hn2⟩ := h2
  refine ⟨d1 ++ d2, ?_, ?_⟩
  · rw [he2, he1, List.append_assoc]
  · intro e he
    rcases List.mem_append.mp he with h | h
    · exact hn1 e h
    · exact hn2 e h

theorem download_attachment_reqLog (env : Env) (net : Net) (url fn : String)
    (s : St) :
    ((download_attachment env net url fn s).2).reqLog =
      s.reqLog ++ [ReqEv.downloadReq url] := by
  unfold download_attachment
  rcases hd : net.download url with m | r
  · rfl
  · by_cases hs : isSuccess r.status = true
    · by_cases hb : r.bytesOk = true
      · simp [hs, hb, St.req, St.fs]
      · simp [hs, hb, St.req, St.fs]
    · simp [hs, St.req]

theorem download_image_reqLog (net : Net) (url p : String) (s : St) :
    ((download_image net url p s).2).reqLog =
      s.reqLog ++ [ReqEv.downloadReq url] := by
  unfold download_image
  rcases hd : net.download url with m | r
  · rfl
  · by_cases hs : isSuccess r.status = true
    · by_cases hb : r.bytesOk = true
      · simp [hs, hb, St.req, St.fs]
      · simp [hs, hb, St.req]
    · simp [hs, St.req]

theorem download_attachment_noItem (env : Env) (net : Net) (url fn : String)
    (s : St) : reqExtendsNoItem s ((download_attachment env net url fn s).2) :=
  ⟨[ReqEv.downloadReq url], download_attachment_reqLog env net url fn s,
    by simp [ReqEv.isItem]⟩

theorem download_image_noItem (net : Net) (url p : String) (s : St) :
    reqExtendsNoItem s ((download_image net url p s).2) :=
  ⟨[ReqEv.downloadReq url], download_image_reqLog net url p s,
    by simp [ReqEv.isItem]⟩

theorem attachments_loop_noItem (env : Env) (net : Net) :
    ∀ (rels : List AzureRelation) (s : St),
      reqExtendsNoItem s ((attachments_loop env net rels s).2) := by
  intro rels
  induction rels with
  | nil => intro s; exact reqExtendsNoItem.refl s
  | cons r rest ih =>
    intro s
    by_cases hrel : r.rel = "AttachedFile"
    · cases hattr : r.attributes with
      | none => simpa [attachments_loop, hrel, hattr] using ih s
      | some a =>
        cases hname : a.name with
        | none => simpa [attachments_loop, hrel, hattr, hname] using ih s
        | some fn =>
          rcases hdl : download_attachment env net r.url fn s with ⟨res, s1⟩
          have hstep : reqExtendsNoItem s s1 := by
            have := download_attachment_noItem env net r.url fn s
            rwa [hdl] at this
          cases res with
          | ok att =>
            have : attachments_loop env net (r :: rest) s =
                (att :: (attachments_loop env net rest s1).1,
                  (attachments_loop env net rest s1).2) := by
              simp [attachments_loop, hrel, hattr, hname, hdl]
            rw [this]
            exact hstep.trans (ih s1)
          | error e =>
            have : attachments_loop env net (r :: rest) s =
                attachments_loop env net rest s1 := by
              simp [attachments_loop, hrel, hattr, hname, hdl]
            rw [this]
            exact hstep.trans (ih s1)
    · simpa [attachments_loop, hrel] using ih s

theorem images_loop_noItem (net : Net) (dir : String) :
    ∀ (urls : List String) (c : Nat) (s : St),
      reqExtendsNoItem s ((images_loop net dir urls c s).2) := by
  intro urls
  induction urls with
  | nil => intro c s; exact reqExtendsNoItem.refl s
  | cons url rest ih =>
    intro c s
    by_cases hdom :
        (strContains url "dev.azure.com" || strContains url "visualstudio.com") = true
    · rcases hdl : download_image net url (dir ++ "/" ++ imagePlaceholder c) s
        with ⟨res, s1⟩
      have hstep : reqExtendsNoItem s s1 := by
        have := download_image_noItem net url (dir ++ "/" ++ imagePlaceholder c) s
        rwa [hdl] at this
      cases res with
      | ok u =>
        have : (images_loop net dir (url :: rest) c s).2 =
            (images_loop net dir rest (c + 1) s1).2 := by
          simp [images_loop, hdom, hdl]
        rw [this]
        exact hstep.trans (ih (c + 1) s1)
      | error e =>
        have : (images_loop net dir (url :: rest) c s).2 =
            (images_loop net dir rest c s1).2 := by
          simp [images_loop, hdom, hdl]
        rw [this]
        exact hstep.trans (ih c s1)
    · simpa [images_loop, hdom] using ih c s

theorem st_fs_noItem (s : St) (e : FsEv) : reqExtendsNoItem s (s.fs e) :=
  ⟨[], by simp [St.fs], by simp⟩

theorem extract_images_noItem (net : Net) (d : String) (id : Nat) (s : St) :
    reqExtendsNoItem s ((extract_and_download_images net d id s).2) := by
  rw [extract_images_eq]
  exact (st_fs_noItem s _).trans (images_loop_noItem net _ _ 1 _)

theorem extract_images_from_text_noItem (net : Net) (t : String) (id : Nat)
    (context : String) (s : St) :
    reqExtendsNoItem s ((extract_and_download_images_from_text net t id context s).2) := by
  have hr : (extract_and_download_images_from_text net t id context s).2 =
      (images_loop net (item_images_dir id ++ "/" ++ context) (scanImgs t) 1
        (s.fs (.mkdir (item_images_dir id ++ "/" ++ context)))).2 := rfl
  rw [hr]
  exact (st_fs_noItem s _).trans (images_loop_noItem net _ _ 1 _)

theorem build_comment_noItem (env : Env) (net : Net) (id : Nat)
    (c : AzureComment) (s : St) :
    reqExtendsNoItem s ((build_comment env net id c s).2) := by
  have hr : (build_comment env net id c s).2 =
      (extract_and_download_images_from_text net c.text id
        ("comment_" ++ natToString c.id) s).2 := rfl
  rw [hr]
  exact extract_images_from_text_noItem net _ id _ s

theorem comments_loop_noItem (env : Env) (net : Net) (id : Nat) :
    ∀ (cs : List AzureComment) (s : St),
      reqExtendsNoItem s ((comments_loop env net id cs s).2) := by
  intro cs
  induction cs with
  | nil => intro s; exact reqExtendsNoItem.refl s
  | cons c rest ih =>
    intro s
    have hr : (comments_loop env net id (c :: rest) s).2 =
        (comments_loop env net id rest ((build_comment env net id c s).2)).2 := by
      simp [comments_loop]
    rw [hr]
    exact (build_comment_noItem env net id c s).trans (ih _)

theorem st_req_comments_noItem (s : St) :
    reqExtendsNoItem s (s.req .commentsReq) :=
  ⟨[ReqEv.commentsReq], by simp [St.req], by simp [ReqEv.isItem]⟩

theorem get_work_item_comments_noItem (env : Env) (net : Net) (id : Nat)
    (s : St) : reqExtendsNoItem s ((get_work_item_comments env net id s).2) := by
  unfold get_work_item_comments
  rcases hc : net.comments with m | ⟨st, tx, body⟩
  · exact st_req_comments_noItem s
  · by_cases hs : isSuccess st = true
    · cases body with
      | ok p =>
        have hr : (let t := s.req ReqEv.commentsReq
            match HttpReply.reply st tx (BodyRead.ok p) with
            | HttpReply.sendError m => (Except.error (Err.sendErr m), t)
            | HttpReply.reply status _ body =>
              if isSuccess status = true then
                match body with
                | BodyRead.readError m => (Except.error (Err.jsonRead m), t)
                | BodyRead.parseError m => (Except.error (Err.jsonParse m), t)
                | BodyRead.ok payload =>
                  match comments_loop env net id payload.value t with
                  | (l, s1) => (Except.ok l, s1)
              else (Except.ok [], t)).2 =
            (comments_loop env net id p.value (s.req ReqEv.commentsReq)).2 := by
          simp [hs]
        rw [hr]
        exact (st_req_comments_noItem s).trans (comments_loop_noItem env net id _ _)
      | readError m => simp [hs]; exact st_req_comments_noItem s
      | parseError m => simp [hs]; exact st_req_comments_noItem s
    · simp [hs]; exact st_req_comments_noItem s

theorem get_work_item_raw_st (net : Net) (org : String) (id : Nat)
    (e : String) (s : St) :
    (get_work_item_raw net org id e s).2 = s.req (.itemReq e) := by
  unfold get_work_item_raw
  rcases hi : net.item e with m | ⟨st, tx, body⟩
  · rfl
  · by_cases hs : isSuccess st = true
    · cases body <;> simp [hs]
    · simp [hs]

theorem bindE_final_st {α : Type} (r : Except Err α × St)
    (g : α → St → Except Err WorkItem × St)
    (hg : ∀ a t, (g a t).2 = t) : (bindE r g).2 = r.2 := by
  rcases r with ⟨res, st⟩
  cases res with
  | ok a => simpa [bindE] using hg a st
  | error e => rfl

theorem get_work_item_tail_noItem (env : Env) (net : Net) (org : String)
    (id : Nat) (s : St) (p : AzureWorkItemResponse) (t1 : St)
    (hfetch : fetch_with_fallback net org id s = (.ok p, t1)) :
    reqExtendsNoItem t1 ((get_work_item env net org id s).2) := by
  unfold get_work_item
  rw [hfetch, bindE_ok]
  cases hrelv : p.relations with
  | none =>
    simp only [hrelv, bindE_ok, extract_images_eq]
    rw [bindE_final_st _ _ (fun a t => rfl)]
    exact (extract_images_noItem net _ id t1).trans
      (get_work_item_comments_noItem env net id _)
  | some rels =>
    simp only [hrelv, extract_attachments_eq, bindE_ok, extract_images_eq]
    rw [bindE_final_st _ _ (fun a t => rfl)]
    exact ((attachments_loop_noItem env net rels t1).trans
      (extract_images_noItem net _ id _)).trans
      (get_work_item_comments_noItem env net id _)

/-- Claim C7: assembly first issues the item fetch without relation
expansion; exactly when that call fails it retries once with
`$expand=Relations`; if the fallback also fails with a non-2xx reply, the
whole assembly fails with that error, which carries the HTTP status of the
failed response. -/
theorem C7_expand_fallback_and_status_carried (env : Env) (net : Net)
    (org : String) (id : Nat) (s : St) :
    (∃ rest, (get_work_item env net org id s).2.reqLog =
        s.reqLog ++ ReqEv.itemReq "" :: rest ∧
      ((∃ p, (get_work_item_raw net org id "" s).1 = .ok p) →
        ∀ x, ReqEv.itemReq x ∉ rest) ∧
      ((∃ e, (get_work_item_raw net org id "" s).1 = .error e) →
        ∃ rest2, rest = ReqEv.itemReq expandRelations :: rest2 ∧
          ∀ x, ReqEv.itemReq x ∉ rest2)) ∧
    (∀ st1 tx1 b1 st2 tx2 b2,
      net.item "" = .reply st1 tx1 b1 → isSuccess st1 = false →
      net.item expandRelations = .reply st2 tx2 b2 → isSuccess st2 = false →
      (get_work_item env net org id s).1 =
        .error (.http st2 tx2 (item_url org id expandRelations))) := by
  constructor
  · rcases h1 : get_work_item_raw net org id "" s with ⟨r1, t1⟩
    have ht1 : t1 = s.req (.itemReq "") := by
      have h := get_work_item_raw_st net org id "" s
      rw [h1] at h
      exact h
    cases r1 with
    | ok p =>
      have hfetch : fetch_with_fallback net org id s = (.ok p, t1) := by
        unfold fetch_with_fallback
        rw [h1]
      obtain ⟨d, hd, hnd⟩ :=
        get_work_item_tail_noItem env net org id s p t1 hfetch
      refine ⟨d, ?_, ?_, ?_⟩
      · rw [hd, ht1]
        simp [St.req]
      · intro _ x hx
        have := hnd _ hx
        simp [ReqEv.isItem] at this
      · rintro ⟨e, he⟩
        exact absurd he (by simp)
    | error e1 =>
      rcases h2 : get_work_item_raw net org id expandRelations t1 with ⟨r2, t2⟩
      have ht2 : t2 = t1.req (.itemReq expandRelations) := by
        have h := get_work_item_raw_st net org id expandRelations t1
        rw [h2] at h
        exact h
      have hfetch : fetch_with_fallback net org id s = (r2, t2) := by
        unfold fetch_with_fallback
        rw [h1]
        exact h2
      cases r2 with
      | ok p =>
        obtain ⟨d, hd, hnd⟩ :=
          get_work_item_tail_noItem env net org id s p t2 hfetch
        refine ⟨ReqEv.itemReq expandRelations :: d, ?_, ?_, ?_⟩
        · rw [hd, ht2, ht1]
          simp [St.req]
        · rintro ⟨q, hq⟩
          exact absurd hq (by simp)
        · intro _
          refine ⟨d, rfl, ?_⟩
          intro x hx
          have := hnd _ hx
          simp [ReqEv.isItem] at this
      | error e2 =>
        have hgw : get_work_item env net org id s = (.error e2, t2) := by
          unfold get_work_item
          rw [hfetch, bindE_err]
        refine ⟨[ReqEv.itemReq expandRelations], ?_, ?_, ?_⟩
        · rw [hgw, ht2, ht1]
          simp [St.req]
        · rintro ⟨q, hq⟩
          exact absurd hq (by simp)
        · intro _
          exact ⟨[], rfl, by simp⟩
  · intro st1 tx1 b1 st2 tx2 b2 hb1 hs1 hb2 hs2
    have h1 : get_work_item_raw net org id "" s =
        (.error (.http st1 tx1 (item_url org id "")), s.req (.itemReq "")) := by
      unfold get_work_item_raw
      rw [hb1]
      simp [hs1]
    have h2 : get_work_item_raw net org id expandRelations
        (s.req (.itemReq "")) =
        (.error (.http st2 tx2 (item_url org id expandRelations)),
          (s.req (.itemReq "")).req (.itemReq expandRelations)) := by
      unfold get_work_item_raw
      rw [hb2]
      simp [hs2]
    have hfetch : fetch_with_fallback net org id s =
        (.error (.http st2 tx2 (item_url org id expandRelations)),
          (s.req (.itemReq "")).req (.itemReq expandRelations)) := by
      unfold fetch_with_fallback
      rw [h1]
      exact h2
    unfold get_work_item
    rw [hfetch, bindE_err]

/-- Closed instance of claim C7: an item answering HTTP 404 with and without
the relations expansion makes the whole assembly fail with the 404 error. -/
theorem C7_expand_fallback_and_status_carried_witness :
    netC7.item "" = .reply 404 "nf" (.ok payloadEmpty) ∧
    netC7.item expandRelations = .reply 404 "nf" (.ok payloadEmpty) ∧
    isSuccess 404 = false ∧
    (get_work_item env0 netC7 "org" 9 St.init).1 =
      .error (.http 404 "nf" (item_url "org" 9 expandRelations)) :=
  ⟨rfl, rfl, rfl,
    (C7_expand_fallback_and_status_carried env0 netC7 "org" 9 St.init).2
      404 "nf" (.ok payloadEmpty) 404 "nf" (.ok payloadEmpty)
      rfl rfl rfl rfl⟩

theorem digitChar_toNat (d : Nat) (h : d < 10) : (digitChar d).toNat = 48 + d := by
  interval_cases d <;> decide

theorem digitChar_inj (a b : Nat) (ha : a < 10) (hb : b < 10)
    (h : digitChar a = digitChar b) : a = b := by
  have := congrArg Char.toNat h
  rw [digitChar_toNat a ha, digitChar_toNat b hb] at this
  omega

theorem valDigits_append_digit (xs : List Char) (c : Char) :
    valDigits (xs ++ [c]) = 10 * valDigits xs + (c.toNat - 48) := by
  simp [valDigits, List.foldl_append, Nat.mul_comm]

theorem valDigits_digitsAux : ∀ (fuel n : Nat), n < fuel →
    valDigits (digitsAux fuel n) = n := by
  intro fuel
  induction fuel with
  | zero => intro n h; omega
  | succ f ih =>
    intro n hn
    by_cases h10 : n < 10
    · simp [digitsAux, h10, valDigits]
      have := digitChar_toNat n h10
      omega
    · have hrec : n / 10 < f := by
        have h1 : n / 10 < n := Nat.div_lt_self (by omega) (by omega)
        omega
      simp only [digitsAux, h10, if_false]
      rw [valDigits_append_digit, ih (n / 10) hrec,
        digitChar_toNat (n % 10) (Nat.mod_lt n (by omega))]
      omega

theorem natToString_inj (m n : Nat) (h : natToString m = natToString n) :
    m = n := by
  have hd : digitsAux (m + 1) m = digitsAux (n + 1) n := by
    have := congrArg String.data h
    simpa [natToString] using this
  have h1 := valDigits_digitsAux (m + 1) m (by omega)
  have h2 := valDigits_digitsAux (n + 1) n (by omega)
  rw [hd] at h1
  rw [h1] at h2
  omega

theorem digitsAux_ne_nil : ∀ (fuel n : Nat), 0 < fuel →
    digitsAux fuel n ≠ [] := by
  intro fuel n h
  cases fuel with
  | zero => omega
  | succ f =>
    by_cases h10 : n < 10 <;> simp [digitsAux, h10]

theorem digitsAux_small (f n : Nat) (h : n < 10) :
    digitsAux (f + 1) n = [digitChar n] := by
  simp [digitsAux, h]

theorem digitsAux_two (fuel n : Nat) (hn : n < fuel) (h1 : 10 ≤ n)
    (h2 : n < 100) :
    digitsAux fuel n = [digitChar (n / 10), digitChar (n % 10)] := by
  cases fuel with
  | zero => omega
  | succ f =>
    have h3 : ¬ n < 10 := by omega
    have h4 : n / 10 < 10 := by omega
    simp only [digitsAux, h3, if_false]
    cases f with
    | zero => omega
    | succ g =>
      rw [digitsAux_small g (n / 10) h4]
      rfl

theorem digitsAux_head_ne_zero : ∀ (fuel n : Nat), n < fuel → 1 ≤ n →
    ∀ c cs, digitsAux fuel n = c :: cs → c ≠ '0' := by
  intro fuel
  induction fuel with
  | zero => intro n h; omega
  | succ f ih =>
    intro n hn h1 c cs heq hc0
    by_cases h10 : n < 10
    · rw [digitsAux_small f n h10] at heq
      cases heq
      have hdn := digitChar_toNat n h10
      rw [hc0] at hdn
      have h48 : Char.toNat '0' = 48 := by decide
      omega
    · have hrec : n / 10 < f := by
        have := Nat.div_lt_self (show 0 < n by omega) (show 1 < 10 by omega)
        omega
      simp only [digitsAux, h10, if_false] at heq
      rcases hne : digitsAux f (n / 10) with _ | ⟨c1, cs1⟩
      · exact digitsAux_ne_nil f (n / 10) (by omega) hne
      · rw [hne] at heq
        simp only [List.cons_append, List.cons.injEq] at heq
        exact ih (n / 10) hrec (by omega) c1 cs1 hne (heq.1 ▸ hc0 ▸ rfl)

theorem digitsAux_len_ge_two (fuel n : Nat) (hn : n < fuel) (h1 : 10 ≤ n) :
    2 ≤ (digitsAux fuel n).length := by
  cases fuel with
  | zero => omega
  | succ f =>
    have h3 : ¬ n < 10 := by omega
    simp only [digitsAux, h3, if_false, List.length_append, List.length_cons,
      List.length_nil]
    have : digitsAux f (n / 10) ≠ [] := by
      apply digitsAux_ne_nil
      have := Nat.div_lt_self (show 0 < n by omega) (show 1 < 10 by omega)
      omega
    have : 1 ≤ (digitsAux f (n / 10)).length := by
      cases hne : digitsAux f (n / 10) with
      | nil => exact absurd hne this
      | cons a l => simp
    omega

theorem digitsAux_len_ge_three (fuel n : Nat) (hn : n < fuel) (h1 : 100 ≤ n) :
    3 ≤ (digitsAux fuel n).length := by
  cases fuel with
  | zero => omega
  | succ f =>
    have h3 : ¬ n < 10 := by omega
    simp only [digitsAux, h3, if_false, List.length_append, List.length_cons,
      List.length_nil]
    have h4 : 10 ≤ n / 10 := by omega
    have h5 : n / 10 < f := by
      have := Nat.div_lt_self (show 0 < n by omega) (show 1 < 10 by omega)
      omega
    have := digitsAux_len_ge_two f (n / 10) h5 h4
    omega

theorem natToString_data (m : Nat) :
    (natToString m).data = digitsAux (m + 1) m := rfl

theorem natToString_data_small (m : Nat) (h : m < 10) :
    (natToString m).data = [digitChar m] := by
  rw [natToString_data, digitsAux_small m m h]

theorem natToString_data_two (m : Nat) (h1 : 10 ≤ m) (h2 : m < 100) :
    (natToString m).data = [digitChar (m / 10), digitChar (m % 10)] := by
  rw [natToString_data, digitsAux_two (m + 1) m (by omega) h1 h2]

theorem natToString_ne_nil (m : Nat) : (natToString m).data ≠ [] := by
  rw [natToString_data]
  exact digitsAux_ne_nil (m + 1) m (by omega)

theorem natToString_head_ne_zero (m : Nat) (h1 : 1 ≤ m) (c : Char)
    (cs : List Char) (heq : (natToString m).data = c :: cs) : c ≠ '0' := by
  rw [natToString_data] at heq
  exact digitsAux_head_ne_zero (m + 1) m (by omega) h1 c cs heq

theorem digitChar_ne_zero (d : Nat) (h1 : 1 ≤ d) (h2 : d < 10) :
    digitChar d ≠ '0' := by
  intro hc
  have hdn := digitChar_toNat d h2
  rw [hc] at hdn
  have h48 : Char.toNat '0' = 48 := by decide
  omega

theorem pad3_data_small (m : Nat) (h : m < 10) :
    (pad3 m).data = ['0', '0', digitChar m] := by
  have hx : pad3 m = "00" ++ natToString m := by simp [pad3, h]
  rw [hx, String.data_append, natToString_data_small m h]
  rfl

theorem pad3_data_two (m : Nat) (h1 : 10 ≤ m) (h2 : m < 100) :
    (pad3 m).data = ['0', digitChar (m / 10), digitChar (m % 10)] := by
  have hx : pad3 m = "0" ++ natToString m := by
    simp [pad3, h2, show ¬ m < 10 by omega]
  rw [hx, String.data_append, natToString_data_two m h1 h2]
  rfl

theorem pad3_large (m : Nat) (h : 100 ≤ m) : pad3 m = natToString m := by
  simp [pad3, show ¬ m < 10 by omega, show ¬ m < 100 by omega]

theorem pad3_not_large_head (m n : Nat) (hm : m < 100) (hn : 100 ≤ n)
    (h : (pad3 m).data = (pad3 n).data) : False := by
  rw [pad3_large n hn] at h
  rcases hne : (natToString n).data with _ | ⟨c, cs⟩
  · exact natToString_ne_nil n hne
  · rw [hne] at h
    have hc := natToString_head_ne_zero n (by omega) c cs hne
    rcases lt_or_ge m 10 with hm1 | hm1
    · rw [pad3_data_small m hm1] at h
      exact hc (by injection h with h1 _; exact h1.symm)
    · rw [pad3_data_two m hm1 hm] at h
      exact hc (by injection h with h1 _; exact h1.symm)

theorem pad3_inj (m n : Nat) (h : pad3 m = pad3 n) : m = n := by
  have hd := congrArg String.data h
  rcases lt_or_ge m 10 with hm1 | hm1
  · rcases lt_or_ge n 10 with hn1 | hn1
    · rw [pad3_data_small m hm1, pad3_data_small n hn1] at hd
      simp only [List.cons.injEq, and_true] at hd
      exact digitChar_inj m n hm1 hn1 (by tauto)
    · rcases lt_or_ge n 100 with hn2 | hn2
      · rw [pad3_data_small m hm1, pad3_data_two n hn1 hn2] at hd
        simp only [List.cons.injEq] at hd
        have : digitChar (n / 10) ≠ '0' :=
          digitChar_ne_zero (n / 10) (by omega) (by omega)
        exact absurd hd.2.1.symm this
      · exact absurd hd (fun hx => pad3_not_large_head m n (by omega) hn2 hx)
  · rcases lt_or_ge m 100 with hm2 | hm2
    · rcases lt_or_ge n 10 with hn1 | hn1
      · rw [pad3_data_two m hm1 hm2, pad3_data_small n hn1] at hd
        simp only [List.cons.injEq] at hd
        have : digitChar (m / 10) ≠ '0' :=
          digitChar_ne_zero (m / 10) (by omega) (by omega)
        exact absurd hd.2.1 this
      · rcases lt_or_ge n 100 with hn2 | hn2
        · rw [pad3_data_two m hm1 hm2, pad3_data_two n hn1 hn2] at hd
          simp only [List.cons.injEq] at hd
          have e1 : m / 10 = n / 10 :=
            digitChar_inj _ _ (by omega) (by omega) hd.2.1
          have e2 : m % 10 = n % 10 :=
            digitChar_inj _ _ (by omega) (by omega) hd.2.2.1
          omega
        · exact absurd hd (fun hx => pad3_not_large_head m n hm2 hn2 hx)
    · rcases lt_or_ge n 100 with hn2 | hn2
      · exact absurd hd.symm (fun hx => pad3_not_large_head n m hn2 hm2 hx)
      · rw [pad3_large m hm2, pad3_large n hn2] at h
        exact natToString_inj m n h

theorem string_append_left_inj (p a b : String) (h : p ++ a = p ++ b) :
    a = b := by
  have hd := congrArg String.data h
  rw [String.data_append, String.data_append] at hd
  exact String.ext (List.append_cancel_left hd)

theorem string_append_right_inj (p a b : String) (h : a ++ p = b ++ p) :
    a = b := by
  have hd := congrArg String.data h
  rw [String.data_append, String.data_append] at hd
  exact String.ext (List.append_cancel_right hd)

theorem imagePlaceholder_inj (m n : Nat)
    (h : imagePlaceholder m = imagePlaceholder n) : m = n := by
  unfold imagePlaceholder at h
  exact pad3_inj m n
    (string_append_left_inj "image" _ _ (string_append_right_inj ".png" _ _ h))

theorem image_path_inj (dir : String) (m n : Nat)
    (h : dir ++ "/" ++ imagePlaceholder m = dir ++ "/" ++ imagePlaceholder n) :
    m = n :=
  imagePlaceholder_inj m n (string_append_left_inj (dir ++ "/") _ _ h)

theorem writesOf_append (l1 l2 : List FsEv) :
    writesOf (l1 ++ l2) = writesOf l1 ++ writesOf l2 := by
  simp [writesOf, List.filterMap_append]

theorem writesOf_write_map (l : List ImageReference) :
    writesOf (l.map (fun r => FsEv.write r.local_path)) =
      l.map ImageReference.local_path := by
  induction l with
  | nil => rfl
  | cons a t ih => simp [writesOf, List.filterMap_cons] at ih ⊢; exact ih

theorem images_pass_writes (net : Net) (dir : String) (urls : List String)
    (c : Nat) (s : St) :
    writesOf (((images_loop net dir urls c s).2).fsLog.drop s.fsLog.length) =
      ((images_loop net dir urls c s).1).map ImageReference.local_path := by
  rw [images_loop_fsLog net dir urls c s, List.drop_left, writesOf_write_map]

theorem images_pass_paths_pairwise (net : Net) (dir : String)
    (urls : List String) (c : Nat) (s : St) :
    (((images_loop net dir urls c s).1).map ImageReference.local_path).Pairwise
      (· ≠ ·) := by
  rw [(images_loop_spec net dir urls c s).2, List.pairwise_map]
  apply List.Pairwise.imp ?_
    (List.pairwise_lt_range ((images_loop net dir urls c s).1).length)
  intro a b hab hc
  have := image_path_inj dir (c + a) (c + b) hc
  omega

theorem download_attachment_ok_spec (env : Env) (net : Net) (url fn : String)
    (s : St) (att : Attachment) (s1 : St)
    (h : download_attachment env net url fn s = (.ok att, s1)) :
    s1.fsLog = s.fsLog ++ [FsEv.mkdir attachments_temp_dir,
      FsEv.write (attachments_temp_dir ++ "/" ++ fn)] ∧
    att.local_path = attachments_temp_dir ++ "/" ++ fn ∧
    att.filename = fn := by
  unfold download_attachment at h
  rcases hd : net.download url with m | r <;> rw [hd] at h
  · exact absurd (congrArg Prod.fst h) (by simp)
  · by_cases hs : isSuccess r.status = true
    · by_cases hb : r.bytesOk = true
      · simp only [hs, hb, if_true] at h
        cases h
        refine ⟨?_, rfl, rfl⟩
        simp [St.fs, St.req]
      · simp [hs, hb] at h
    · simp [hs] at h

theorem download_attachment_err_spec (env : Env) (net : Net) (url fn : String)
    (s : St) (e : Err) (s1 : St)
    (h : download_attachment env net url fn s = (.error e, s1)) :
    ∃ d, s1.fsLog = s.fsLog ++ d ∧ writesOf d = [] := by
  unfold download_attachment at h
  rcases hd : net.download url with m | r <;> rw [hd] at h
  · cases h
    exact ⟨[], by simp [St.req], rfl⟩
  · by_cases hs : isSuccess r.status = true
    · by_cases hb : r.bytesOk = true
      · simp [hs, hb] at h
      · simp only [hs, hb, if_true, if_false] at h
        cases h
        exact ⟨[FsEv.mkdir attachments_temp_dir], by simp [St.fs, St.req], rfl⟩
    · simp only [hs, if_false] at h
      cases h
      exact ⟨[], by simp [St.req], rfl⟩

theorem attachments_loop_writes (env : Env) (net : Net) :
    ∀ (rels : List AzureRelation) (s : St),
      ∃ d, ((attachments_loop env net rels s).2).fsLog = s.fsLog ++ d ∧
        writesOf d =
          ((attachments_loop env net rels s).1).map Attachment.local_path ∧
        List.Sublist
          (((attachments_loop env net rels s).1).map Attachment.filename)
          (attachedNames rels) ∧
        ∀ a ∈ (attachments_loop env net rels s).1,
          a.local_path = attachments_temp_dir ++ "/" ++ a.filename := by
  intro rels
  induction rels with
  | nil =>
    intro s
    exact ⟨[], by simp [attachments_loop], rfl, by simp [attachments_loop, attachedNames], by simp [attachments_loop]⟩
  | cons r rest ih =>
    intro s
    by_cases hrel : r.rel = "AttachedFile"
    · cases hattr : r.attributes with
      | none =>
        have hloop : attachments_loop env net (r :: rest) s =
            attachments_loop env net rest s := by
          simp [attachments_loop, hrel, hattr]
        have hnames : attachedNames (r :: rest) = attachedNames rest := by
          simp [attachedNames, List.filterMap_cons, hrel, hattr]
        rw [hloop, hnames]
        exact ih s
      | some a =>
        cases hname : a.name with
        | none =>
          have hloop : attachments_loop env net (r :: rest) s =
              attachments_loop env net rest s := by
            simp [attachments_loop, hrel, hattr, hname]
          have hnames : attachedNames (r :: rest) = attachedNames rest := by
            simp [attachedNames, List.filterMap_cons, hrel, hattr, hname]
          rw [hloop, hnames]
          exact ih s
        | some fn =>
          have hnames : attachedNames (r :: rest) = fn :: attachedNames rest := by
            simp [attachedNames, List.filterMap_cons, hrel, hattr, hname]
          rcases hdl : download_attachment env net r.url fn s with ⟨res, s1⟩
          cases res with
          | ok att =>
            obtain ⟨hfs, hpath, hfn⟩ :=
              download_attachment_ok_spec env net r.url fn s att s1 hdl
            have hloop : attachments_loop env net (r :: rest) s =
                (att :: (attachments_loop env net rest s1).1,
                  (attachments_loop env net rest s1).2) := by
              simp [attachments_loop, hrel, hattr, hname, hdl]
            obtain ⟨d, hd, hw, hsub, hmem⟩ := ih s1
            refine ⟨[FsEv.mkdir attachments_temp_dir,
              FsEv.write (attachments_temp_dir ++ "/" ++ fn)] ++ d, ?_, ?_, ?_, ?_⟩
            · rw [hloop]
              rw [hd, hfs, List.append_assoc]
            · rw [hloop, writesOf_append, hw]
              simp [writesOf, List.filterMap_cons, hpath]
            · rw [hloop, hnames]
              simp only [List.map_cons, hfn]
              exact List.Sublist.cons₂ fn hsub
            · rw [hloop]
              intro x hx
              rcases List.mem_cons.mp hx with hx | hx
              · rw [hx, hpath, hfn]
              · exact hmem x hx
          | error e =>
            obtain ⟨d0, hd0, hw0⟩ :=
              download_attachment_err_spec env net r.url fn s e s1 hdl
            have hloop : attachments_loop env net (r :: rest) s =
                attachments_loop env net rest s1 := by
              simp [attachments_loop, hrel, hattr, hname, hdl]
            obtain ⟨d, hd, hw, hsub, hmem⟩ := ih s1
            refine ⟨d0 ++ d, ?_, ?_, ?_, ?_⟩
            · rw [hloop, hd, hd0, List.append_assoc]
            · rw [hloop, writesOf_append, hw0, hw]
              simp
            · rw [hloop, hnames]
              exact List.Sublist.cons fn hsub
            · rw [hloop]
              exact hmem
    · have hloop : attachments_loop env net (r :: rest) s =
          attachments_loop env net rest s := by
        simp [attachments_loop, hrel]
      have hnames : attachedNames (r :: rest) = attachedNames rest := by
        simp [attachedNames, List.filterMap_cons, hrel]
      rw [hloop, hnames]
      exact ih s

/-- Claim C9 (amended): every downloaded resource is written to a
deterministically computed path; within one image-extraction pass the
written paths are pairwise distinct, and the attachment pass writes pairwise
distinct paths whenever the names of its downloadable relations are pairwise
distinct — but an attachment path depends on the filename alone, so two
attachments sharing a filename in one run collide. -/
theorem C9_distinct_write_paths_amended :
    (∀ (net : Net) (d : String) (id : Nat) (s : St),
      (writesOf (((extract_and_download_images net d id s).2).fsLog.drop
        s.fsLog.length)).Pairwise (· ≠ ·)) ∧
    (∀ (net : Net) (t : String) (id : Nat) (ctx : String) (s : St),
      (writesOf (((extract_and_download_images_from_text net t id ctx
        s).2).fsLog.drop s.fsLog.length)).Pairwise (· ≠ ·)) ∧
    (∀ (env : Env) (net : Net) (rels : List AzureRelation) (s : St),
      (attachedNames rels).Pairwise (· ≠ ·) →
      (writesOf (((extract_attachments env net rels s).2).fsLog.drop
        s.fsLog.length)).Pairwise (· ≠ ·)) := by
  refine ⟨?_, ?_, ?_⟩
  · intro net d id s
    have h2 : (extract_and_download_images net d id s).2 =
        (images_loop net (item_images_dir id) (scanImgs d) 1
          (s.fs (.mkdir (item_images_dir id)))).2 := rfl
    rw [h2, images_loop_fsLog]
    have h3 : (s.fs (FsEv.mkdir (item_images_dir id))).fsLog =
        s.fsLog ++ [FsEv.mkdir (item_images_dir id)] := by simp [St.fs]
    rw [h3, List.append_assoc, List.drop_left, writesOf_append,
      writesOf_write_map]
    simpa [writesOf] using
      images_pass_paths_pairwise net (item_images_dir id) (scanImgs d) 1
        (s.fs (.mkdir (item_images_dir id)))
  · intro net t id ctx s
    have h2 : (extract_and_download_images_from_text net t id ctx s).2 =
        (images_loop net (item_images_dir id ++ "/" ++ ctx) (scanImgs t) 1
          (s.fs (.mkdir (item_images_dir id ++ "/" ++ ctx)))).2 := rfl
    rw [h2, images_loop_fsLog]
    have h3 : (s.fs (FsEv.mkdir (item_images_dir id ++ "/" ++ ctx))).fsLog =
        s.fsLog ++ [FsEv.mkdir (item_images_dir id ++ "/" ++ ctx)] := by
      simp [St.fs]
    rw [h3, List.append_assoc, List.drop_left, writesOf_append,
      writesOf_write_map]
    simpa [writesOf] using
      images_pass_paths_pairwise net (item_images_dir id ++ "/" ++ ctx)
        (scanImgs t) 1 (s.fs (.mkdir (item_images_dir id ++ "/" ++ ctx)))
  · intro env net rels s hnames
    obtain ⟨d, hd, hw, hsub, hmem⟩ := attachments_loop_writes env net rels s
    have h2 : (extract_attachments env net rels s).2 =
        (attachments_loop env net rels s).2 := rfl
    rw [h2, hd, List.drop_left, hw]
    have hcong : ((attachments_loop env net rels s).1).map Attachment.local_path =
        (((attachments_loop env net rels s).1).map Attachment.filename).map
          (fun f => attachments_temp_dir ++ "/" ++ f) := by
      rw [List.map_map]
      exact List.map_congr_left (fun a ha => hmem a ha)
    rw [hcong]
    apply List.Pairwise.sublist
      (List.Sublist.map (fun f => attachments_temp_dir ++ "/" ++ f) hsub)
    rw [List.pairwise_map]
    apply List.Pairwise.imp ?_ hnames
    intro a b hab hc
    exact hab (string_append_left_inj (attachments_temp_dir ++ "/") a b hc)

/-- Counterexample to claim C9 as frozen: two distinct downloads (different
source URLs) in one run write to the same local path, because both
attachments are named `a.txt` and the target path is computed from the
filename alone. -/
theorem C9_distinct_write_paths_counterexample :
    Except.map (List.map Attachment.url)
      (extract_attachments env0 netDl relsC9 St.init).1 = .ok ["u1", "u2"] ∧
    Except.map (List.map Attachment.local_path)
      (extract_attachments env0 netDl relsC9 St.init).1 =
      .ok ["X:/.OTCX/Tickets/temp/attachments/a.txt",
           "X:/.OTCX/Tickets/temp/attachments/a.txt"] ∧
    writesOf ((extract_attachments env0 netDl relsC9 St.init).2.fsLog) =
      ["X:/.OTCX/Tickets/temp/attachments/a.txt",
       "X:/.OTCX/Tickets/temp/attachments/a.txt"] := by
  exact ⟨rfl, rfl, rfl⟩

/-- Closed instance of the amended claim C9 on two attachments with distinct
filenames. -/
theorem C9_distinct_write_paths_witness :
    (attachedNames relsC9b).Pairwise (· ≠ ·) ∧
    (writesOf (((extract_attachments env0 netDl relsC9b St.init).2).fsLog.drop
      St.init.fsLog.length)).Pairwise (· ≠ ·) := by
  have hn : (attachedNames relsC9b).Pairwise (· ≠ ·) := by
    rw [show attachedNames relsC9b = ["a.txt", "b.txt"] from rfl]
    simp
  exact ⟨hn,
    C9_distinct_write_paths_amended.2.2 env0 netDl relsC9b St.init hn⟩

theorem takeWhile_all_append (p : Char → Bool) (xs : List Char) (y : Char)
    (ys : List Char) (hxs : ∀ c ∈ xs, p c = true) (hy : p y = false) :
    (xs ++ y :: ys).takeWhile p = xs := by
  induction xs with
  | nil => simp [List.takeWhile_cons, hy]
  | cons a t ih =>
    have ha := hxs a (by simp)
    simp only [List.cons_append, List.takeWhile_cons, ha, if_true]
    rw [ih (fun c hc => hxs c (by simp [hc]))]

theorem dropWhile_all_append (p : Char → Bool) (xs : List Char) (y : Char)
    (ys : List Char) (hxs : ∀ c ∈ xs, p c = true) (hy : p y = false) :
    (xs ++ y :: ys).dropWhile p = y :: ys := by
  induction xs with
  | nil => simp [List.dropWhile_cons, hy]
  | cons a t ih =>
    have ha := hxs a (by simp)
    simp only [List.cons_append, List.dropWhile_cons, ha, if_true]
    exact ih (fun c hc => hxs c (by simp [hc]))

theorem parseNodesAux_stop (f : Nat) (cs : List Char) :
    parseNodesAux f ('<' :: '/' :: cs) = ([], '<' :: '/' :: cs) := by
  cases f with
  | zero => rfl
  | succ g => simp [parseNodesAux]

theorem isTagChar_ne (c : Char) (h : isTagChar c = true) :
    c ≠ '>' ∧ c ≠ '<' ∧ c ≠ '/' := by
  refine ⟨?_, ?_, ?_⟩ <;> intro he <;> rw [he] at h <;> simp [isTagChar] at h

theorem string_mk_data (s : String) : String.mk s.data = s := String.ext rfl

theorem parse_element_step (f : Nat) (hf : 1 ≤ f) (tag text : String)
    (after : List Char) (htag : tag ≠ "")
    (htagchars : ∀ c ∈ tag.data, isTagChar c = true)
    (htext : ∀ c ∈ text.data, c ≠ '<') :
    parseNodesAux (f + 1)
      ('<' :: (tag.data ++ '>' :: (text.data ++
        '<' :: '/' :: (tag.data ++ '>' :: after)))) =
      (Node.elem tag (if text = "" then [] else [Node.text text]) ::
        (parseNodesAux f after).1, (parseNodesAux f after).2) := by
  rcases htagd : tag.data with _ | ⟨c0, tl⟩
  · exact absurd (String.ext htagd) htag
  · have hc0 : isTagChar c0 = true := htagchars c0 (by rw [htagd]; simp)
    have htl : ∀ c ∈ tl, isTagChar c = true := fun c hc =>
      htagchars c (by rw [htagd]; simp [hc])
    have hgt : isTagChar '>' = false := by decide
    have hslash : ¬ c0 = '/' := (isTagChar_ne c0 hc0).2.2
    have hREST : ∀ X : List Char, (c0 :: tl) ++ '>' :: X =
        c0 :: (tl ++ '>' :: X) := by simp
    -- the take/drop of the opening tag
    have hname : (c0 :: (tl ++ '>' :: (text.data ++
        '<' :: '/' :: ((c0 :: tl) ++ '>' :: after)))).takeWhile isTagChar =
        c0 :: tl := by
      rw [List.takeWhile_cons, hc0]
      simp only [if_true]
      rw [takeWhile_all_append isTagChar tl '>' _ htl hgt]
    have hdrop1 : ((c0 :: (tl ++ '>' :: (text.data ++
        '<' :: '/' :: ((c0 :: tl) ++ '>' :: after)))).dropWhile
          (· ≠ '>')).drop 1 =
        text.data ++ '<' :: '/' :: ((c0 :: tl) ++ '>' :: after) := by
      rw [List.dropWhile_cons]
      rw [if_pos (by simp [(isTagChar_ne c0 hc0).1])]
      rw [dropWhile_all_append _ tl '>' _
        (fun c hc => by simp [(isTagChar_ne c (htl c hc)).1]) (by simp)]
      rfl
    simp only [parseNodesAux, if_true]
    split
    next heq => exact absurd heq (by simp)
    next c2 cs2 heq =>
      injection heq with h1 h2
      subst h1
      subst h2
      rw [if_neg hslash]
      simp only [List.append_eq]
      rw [hname, hdrop1]
      have htagmk : String.mk (c0 :: tl) = tag := by
        rw [← htagd]
      have hchild : parseNodesAux f
          (text.data ++ '<' :: '/' :: (c0 :: tl ++ '>' :: after)) =
          ((if text = "" then [] else [Node.text text]),
            '<' :: '/' :: (c0 :: tl ++ '>' :: after)) := by
        by_cases hx : text = ""
        · subst hx
          exact parseNodesAux_stop f _
        · rw [if_neg hx]
          rcases htextd : text.data with _ | ⟨d0, dtl⟩
          · exact absurd (String.ext htextd) hx
          · have hd0 : ¬ d0 = '<' := htext d0 (by rw [htextd]; simp)
            have hdtl : ∀ c ∈ dtl, (fun x => decide (x ≠ '<')) c = true :=
              fun c hc => by
                simp [htext c (by rw [htextd]; simp [hc])]
            simp only [List.cons_append]
            cases f with
            | zero => omega
            | succ g =>
              simp only [parseNodesAux]
              rw [if_neg hd0]
              have htw : (d0 :: (dtl ++ '<' :: '/' ::
                  c0 :: (tl ++ '>' :: after))).takeWhile
                    (fun x => decide (x ≠ '<')) = d0 :: dtl := by
                rw [List.takeWhile_cons]
                rw [if_pos (by simp [hd0])]
                rw [takeWhile_all_append _ dtl '<' _ hdtl (by simp)]
              have hdw : (d0 :: (dtl ++ '<' :: '/' ::
                  c0 :: (tl ++ '>' :: after))).dropWhile
                    (fun x => decide (x ≠ '<')) =
                  '<' :: '/' :: c0 :: (tl ++ '>' :: after) := by
                rw [List.dropWhile_cons]
                rw [if_pos (by simp [hd0])]
                exact dropWhile_all_append _ dtl '<' _ hdtl (by simp)
              rw [htw, hdw, parseNodesAux_stop g _]
              rw [show String.mk (d0 :: dtl) = text by rw [← htextd]]
      have hdrop2 : List.drop 1 (List.dropWhile (fun x => decide (x ≠ '>'))
          ('<' :: '/' :: (c0 :: tl ++ '>' :: after))) = after := by
        rw [List.dropWhile_cons, if_pos (by simp)]
        rw [List.dropWhile_cons, if_pos (by simp)]
        rw [dropWhile_all_append _ (c0 :: tl) '>' after
          (fun c hc => by
            rcases List.mem_cons.mp hc with h | h
            · simp [h, (isTagChar_ne c0 hc0).1]
            · simp [(isTagChar_ne c (htl c h)).1]) (by simp)]
        rfl
      simp only [hchild]
      rw [hdrop2, htagmk]

theorem parse_renderData :
    ∀ (l : List (String × String)) (fuel : Nat),
      l.length + 1 ≤ fuel →
      (∀ e ∈ l, e.1 ≠ "" ∧ (∀ c ∈ e.1.data, isTagChar c = true) ∧
        (∀ c ∈ e.2.data, c ≠ '<')) →
      parseNodesAux fuel (renderData l) = (l.map mkNode, []) := by
  intro l
  induction l with
  | nil =>
    intro fuel hf _
    cases fuel with
    | zero => omega
    | succ f => rfl
  | cons e rest ih =>
    intro fuel hf hok
    obtain ⟨htag, htagchars, htext⟩ := hok e (by simp)
    cases fuel with
    | zero => omega
    | succ f =>
      have hr : renderData (e :: rest) =
          '<' :: (e.1.data ++ '>' :: (e.2.data ++
            '<' :: '/' :: (e.1.data ++ '>' :: renderData rest))) := by
        simp [renderData]
      rw [hr, parse_element_step f (by simp at hf; omega) e.1 e.2
        (renderData rest) htag htagchars htext]
      rw [ih f (by simp at hf; omega) (fun x hx => hok x (by simp [hx]))]
      simp [mkNode]

theorem textOfNodes_nil (fuel : Nat) : textOfNodes fuel [] = [] := by
  cases fuel <;> rfl

theorem textOfNodes_kids (fuel : Nat) (hf : 1 ≤ fuel) (x : String) :
    textOfNodes fuel (if x = "" then [] else [Node.text x]) = x.data := by
  by_cases hx : x = ""
  · rw [if_pos hx, textOfNodes_nil, hx]
  · rw [if_neg hx]
    cases fuel with
    | zero => omega
    | succ g =>
      show x.data ++ textOfNodes g [] = x.data
      rw [textOfNodes_nil]
      simp

theorem elemsOf_mkNodes :
    ∀ (l : List (String × String)) (fuel : Nat), 2 * l.length ≤ fuel →
      elemsOf fuel (l.map mkNode) =
        l.map (fun e => (e.1, if e.2 = "" then [] else [Node.text e.2])) := by
  intro l
  induction l with
  | nil =>
    intro fuel _
    cases fuel <;> rfl
  | cons e rest ih =>
    intro fuel hf
    cases fuel with
    | zero => simp only [List.length_cons] at hf; omega
    | succ f =>
      show elemsOf (f + 1) (Node.elem e.1 (if e.2 = "" then [] else
        [Node.text e.2]) :: rest.map mkNode) = _
      by_cases hx : e.2 = ""
      · rw [if_pos hx]
        show (e.1, ([] : List Node)) :: elemsOf f (rest.map mkNode) = _
        rw [ih f (by simp at hf; omega)]
        simp [hx]
      · rw [if_neg hx]
        show (e.1, [Node.text e.2]) ::
          elemsOf f (Node.text e.2 :: rest.map mkNode) = _
        cases f with
        | zero => simp only [List.length_cons] at hf; omega
        | succ g =>
          show (e.1, [Node.text e.2]) :: elemsOf g (rest.map mkNode) = _
          rw [ih g (by simp at hf; omega)]
          simp [hx]


theorem dropWhile_head_false (p : Char → Bool) (l : List Char) (c : Char)
    (t : List Char) (h : l.dropWhile p = c :: t) : p c = false := by
  have hx := List.head?_dropWhile_not p l
  rw [h] at hx
  exact hx

theorem dropWhile_ne_nil_of_mem (p : Char → Bool) (x : Char) (l : List Char)
    (hm : x ∈ l) (hp : p x = false) : l.dropWhile p ≠ [] := by
  intro hnil
  have hx := List.dropWhile_eq_nil_iff.mp hnil x hm
  rw [hp] at hx
  exact Bool.false_ne_true hx

theorem trimR_prefix (cs : List Char) : trimR cs <+: cs := by
  rw [← List.reverse_suffix]
  show (cs.reverse.dropWhile isWS).reverse.reverse <:+ cs.reverse
  rw [List.reverse_reverse]
  exact List.dropWhile_suffix isWS

theorem rustTrim_head_false (cs : List Char) (c : Char) (t : List Char)
    (h : rustTrim cs = c :: t) : isWS c = false := by
  obtain ⟨r, hr⟩ := trimR_prefix (trimL cs)
  rw [show trimR (trimL cs) = rustTrim cs from rfl, h] at hr
  have h2 : cs.dropWhile isWS = c :: (t ++ r) := by
    rw [show cs.dropWhile isWS = trimL cs from rfl, ← hr]
    simp
  exact dropWhile_head_false isWS cs c (t ++ r) h2

theorem rustTrim_getLast_false (cs : List Char) (c : Char)
    (h : (rustTrim cs).getLast? = some c) : isWS c = false := by
  have h1 : (rustTrim cs).getLast? =
      ((trimL cs).reverse.dropWhile isWS).head? := by
    show (((trimL cs).reverse.dropWhile isWS).reverse).getLast? = _
    rw [List.getLast?_reverse]
  rw [h1] at h
  rcases hd : (trimL cs).reverse.dropWhile isWS with _ | ⟨d, dt⟩
  · rw [hd] at h
    exact absurd h (by simp)
  · rw [hd] at h
    simp only [List.head?_cons, Option.some.injEq] at h
    exact h ▸ dropWhile_head_false isWS (trimL cs).reverse d dt hd

theorem mem_rustTrim (cs : List Char) (c : Char) (h : c ∈ rustTrim cs) :
    c ∈ cs := by
  obtain ⟨r, hr⟩ := trimR_prefix (trimL cs)
  have h1 : c ∈ trimL cs := by
    rw [← hr]
    exact List.mem_append_left r h
  exact (List.dropWhile_sublist isWS).subset h1

theorem rustTrim_cons_ne_nil (c : Char) (t : List Char) (h : isWS c = false) :
    rustTrim (c :: t) ≠ [] := by
  show trimR (trimL (c :: t)) ≠ []
  rw [show trimL (c :: t) = c :: t from
    List.dropWhile_cons_of_neg (by simp [h])]
  intro hnil
  have h2 : (c :: t).reverse.dropWhile isWS = [] := by
    have h3 := congrArg List.reverse hnil
    rw [show (trimR (c :: t)).reverse = (c :: t).reverse.dropWhile isWS from
      List.reverse_reverse _] at h3
    simpa using h3
  exact dropWhile_ne_nil_of_mem isWS c (c :: t).reverse (by simp) h h2

theorem splitOnNL_ne_nil (cs : List Char) : splitOnNL cs ≠ [] := by
  cases cs with
  | nil => simp [splitOnNL]
  | cons c t =>
    simp only [splitOnNL]
    by_cases h : c = '\n'
    · simp [h]
    · rw [if_neg h]
      cases hs : splitOnNL t with
      | nil => simp
      | cons l ls => simp

theorem splitOnNL_append (xs ys : List Char) (h : ∀ c ∈ xs, c ≠ '\n') :
    splitOnNL (xs ++ '\n' :: ys) = xs :: splitOnNL ys := by
  induction xs with
  | nil => simp [splitOnNL]
  | cons c t ih =>
    have hc : ¬ c = '\n' := h c (by simp)
    simp only [List.cons_append, splitOnNL, if_neg hc, List.append_eq]
    rw [ih (fun d hd => h d (by simp [hd]))]

theorem splitOnNL_no_nl (xs : List Char) (h : ∀ c ∈ xs, c ≠ '\n') :
    splitOnNL xs = [xs] := by
  induction xs with
  | nil => rfl
  | cons c t ih =>
    have hc : ¬ c = '\n' := h c (by simp)
    simp only [splitOnNL, if_neg hc]
    rw [ih (fun d hd => h d (by simp [hd]))]

theorem stripCR_id (x : List Char) (h : ∀ c ∈ x, c ≠ '\r') : stripCR x = x := by
  simp only [stripCR]
  rw [if_neg]
  intro hl
  exact h '\r' (List.mem_of_getLast?_eq_some hl) rfl

theorem rustLinesCore_flatMap (B : List (List Char))
    (h : ∀ x ∈ B, ∀ c ∈ x, c ≠ '\n' ∧ c ≠ '\r') :
    rustLinesCore (B.flatMap (fun x => x ++ ['\n'])) = B := by
  have hsplit : splitOnNL (B.flatMap (fun x => x ++ ['\n'])) = B ++ [[]] := by
    induction B with
    | nil => rfl
    | cons b B ih =>
      simp only [List.flatMap_cons, List.append_assoc]
      rw [show ['\n'] ++ B.flatMap (fun x => x ++ ['\n']) =
        '\n' :: B.flatMap (fun x => x ++ ['\n']) from rfl]
      rw [splitOnNL_append b _ (fun c hc => (h b (by simp) c hc).1)]
      rw [ih (fun x hx c hc => h x (by simp [hx]) c hc)]
      rfl
  have hmap : B.map stripCR = B := by
    rw [List.map_congr_left (fun x hx => stripCR_id x
      (fun c hc => (h x hx c hc).2))]
    exact List.map_id B
  simp only [rustLinesCore]
  rw [hsplit, List.getLast?_concat]
  show (if ([] : List Char) = [] then (B ++ [[]]).dropLast.map stripCR
    else ((B ++ [[]]).dropLast.map stripCR) ++ [[]]) = B
  rw [if_pos rfl, List.dropLast_concat]
  exact hmap

theorem splitOnNL_join (M : List (List Char)) (hM : M ≠ [])
    (h : ∀ x ∈ M, ∀ c ∈ x, c ≠ '\n') :
    splitOnNL (joinLines M) = M := by
  induction M with
  | nil => exact absurd rfl hM
  | cons a M' ih =>
    cases M' with
    | nil => exact splitOnNL_no_nl a (h a (by simp))
    | cons b M'' =>
      show splitOnNL (a ++ '\n' :: joinLines (b :: M'')) = _
      rw [splitOnNL_append a _ (h a (by simp))]
      rw [ih (by simp) (fun x hx c hc => h x (by simp [hx]) c hc)]

theorem lines_joinLines (M : List (List Char))
    (h : ∀ x ∈ M, x ≠ [] ∧ ∀ c ∈ x, c ≠ '\n' ∧ c ≠ '\r') :
    rustLinesCore (joinLines M) = M := by
  cases hM : M with
  | nil => rfl
  | cons a M' =>
    have hMne : M ≠ [] := by rw [hM]; simp
    rw [← hM]
    have hsplit : splitOnNL (joinLines M) = M :=
      splitOnNL_join M hMne (fun x hx c hc => (h x hx).2 c hc |>.1)
    have hlast := List.getLast?_eq_getLast M hMne
    simp only [rustLinesCore]
    rw [hsplit, hlast]
    show (if M.getLast hMne = [] then M.dropLast.map stripCR
      else (M.dropLast.map stripCR) ++ [M.getLast hMne]) = M
    rw [if_neg (h (M.getLast hMne) (List.getLast_mem hMne)).1]
    rw [List.map_congr_left (fun x hx => stripCR_id x
      (fun c hc => ((h x ((List.dropLast_sublist M).subset hx)).2 c hc).2))]
    rw [List.map_id']
    exact List.dropLast_concat_getLast hMne

theorem fmtElem_eq (tag : String) (t : List Char) :
    fmtElem tag t = (elemLines tag t).flatMap (fun x => x ++ ['\n']) := by
  by_cases h1 : tag = "li"
  · simp [fmtElem, elemLines, fmtLine, h1]
  · by_cases h2 : tag.data.head? = some 'h'
    · simp [fmtElem, elemLines, fmtLine, h1, h2]
    · simp [fmtElem, elemLines, fmtLine, h1, h2]

theorem flatten_map_flatMap (g : List Char → List Char)
    (M : List (List (List Char))) :
    (M.map (fun x => x.flatMap g)).flatten = M.flatten.flatMap g := by
  induction M with
  | nil => rfl
  | cons m M ih => simp [List.flatMap_append, ih]

theorem fmtLine_ne_nil (tag : String) (c0 : Char) (t0 : List Char) :
    fmtLine tag (c0 :: t0) ≠ [] := by
  simp only [fmtLine]
  by_cases h1 : tag = "li"
  · rw [if_pos h1]
    simp
  · rw [if_neg h1]
    by_cases h2 : tag.data.head? = some 'h'
    · rw [if_pos h2]
      simp
    · rw [if_neg h2]
      simp

theorem fmtLine_head_false (tag : String) (c0 : Char) (t0 : List Char)
    (hc0 : isWS c0 = false) (c : Char)
    (h : (fmtLine tag (c0 :: t0)).head? = some c) : isWS c = false := by
  simp only [fmtLine] at h
  by_cases h1 : tag = "li"
  · rw [if_pos h1] at h
    simp only [List.head?_cons, Option.some.injEq] at h
    rw [← h]
    decide
  · rw [if_neg h1] at h
    by_cases h2 : tag.data.head? = some 'h'
    · rw [if_pos h2] at h
      simp only [List.cons_append, List.head?_cons, Option.some.injEq] at h
      rw [← h]
      decide
    · rw [if_neg h2] at h
      simp only [List.head?_cons, Option.some.injEq] at h
      rw [← h]
      exact hc0

theorem fmtLine_getLast_false (tag : String) (c0 : Char) (t0 : List Char)
    (hlast : ∀ c, (c0 :: t0).getLast? = some c → isWS c = false) (c : Char)
    (h : (fmtLine tag (c0 :: t0)).getLast? = some c) : isWS c = false := by
  simp only [fmtLine] at h
  by_cases h1 : tag = "li"
  · rw [if_pos h1, List.getLast?_cons_cons, List.getLast?_cons_cons] at h
    exact hlast c h
  · rw [if_neg h1] at h
    by_cases h2 : tag.data.head? = some 'h'
    · rw [if_pos h2] at h
      rw [show ('*' :: '*' :: c0 :: t0) ++ ['*', '*'] =
        (('*' :: '*' :: c0 :: t0) ++ ['*']) ++ ['*'] by simp] at h
      rw [List.getLast?_concat] at h
      simp only [Option.some.injEq] at h
      rw [← h]
      decide
    · rw [if_neg h2] at h
      exact hlast c h

theorem fmtLine_mem (tag : String) (t : List Char) (c : Char)
    (h : c ∈ fmtLine tag t) : c ∈ t ∨ c = '•' ∨ c = ' ' ∨ c = '*' := by
  simp only [fmtLine] at h
  by_cases h1 : tag = "li"
  · rw [if_pos h1] at h
    simp only [List.mem_cons] at h
    tauto
  · rw [if_neg h1] at h
    by_cases h2 : tag.data.head? = some 'h'
    · rw [if_pos h2] at h
      simp only [List.mem_append, List.mem_cons, List.not_mem_nil, or_false] at h
      tauto
    · rw [if_neg h2] at h
      tauto

theorem filter_elemLines (tag : String) (c0 : Char) (t0 : List Char)
    (hc0 : isWS c0 = false) :
    (elemLines tag (c0 :: t0)).filter (fun l => ¬ rustTrim l = []) =
      [fmtLine tag (c0 :: t0)] := by
  have hkeep : rustTrim (fmtLine tag (c0 :: t0)) ≠ [] := by
    simp only [fmtLine]
    by_cases h1 : tag = "li"
    · rw [if_pos h1]
      exact rustTrim_cons_ne_nil '•' _ (by decide)
    · rw [if_neg h1]
      by_cases h2 : tag.data.head? = some 'h'
      · rw [if_pos h2]
        exact rustTrim_cons_ne_nil '*' (('*' :: c0 :: t0) ++ ['*', '*'])
          (by decide)
      · rw [if_neg h2]
        exact rustTrim_cons_ne_nil c0 t0 hc0
  by_cases h1 : tag = "li"
  · simp only [elemLines, if_pos h1, List.filter_cons, List.filter_nil]
    rw [if_pos (by simpa using hkeep)]
  · simp only [elemLines, if_neg h1]
    by_cases h2 : tag.data.head? = some 'h'
    · simp only [if_pos h2, List.filter_cons, List.filter_nil]
      rw [if_neg (by simp [rustTrim, trimL, trimR]),
        if_pos (by simpa using hkeep)]
    · simp only [if_neg h2, List.filter_cons, List.filter_nil]
      rw [if_pos (by simpa using hkeep)]

theorem lines_of_elements (l : List (String × String)) :
    ((l.filterMap (fun e =>
        if rustTrim e.2.data = [] then none
        else some (elemLines e.1 (rustTrim e.2.data)))).flatten).filter
      (fun x => ¬ rustTrim x = []) =
    l.filterMap (fun e =>
      if rustTrim e.2.data = [] then none
      else some (fmtLine e.1 (rustTrim e.2.data))) := by
  induction l with
  | nil => rfl
  | cons e rest ih =>
    simp only [List.filterMap_cons]
    by_cases h : rustTrim e.2.data = []
    · rw [if_pos h, if_pos h]
      exact ih
    · rw [if_neg h, if_neg h]
      simp only [List.flatten_cons, List.filter_append]
      rcases htr : rustTrim e.2.data with _ | ⟨c0, t0⟩
      · exact absurd htr h
      · rw [filter_elemLines e.1 c0 t0 (rustTrim_head_false e.2.data c0 t0 htr)]
        rw [ih]
        rfl

theorem joinLines_cons_head (L : List (List Char)) (c0 : Char)
    (t0 : List Char) :
    ∃ u, joinLines ((c0 :: t0) :: L) = c0 :: u := by
  cases L with
  | nil => exact ⟨t0, rfl⟩
  | cons d L' => exact ⟨t0 ++ '\n' :: joinLines (d :: L'), rfl⟩

theorem replaceAux_nl_skip (rep : List Char) (xs cs : List Char)
    (h : ∀ c ∈ xs, c ≠ '\n') :
    replaceAux ['\n', '\n', '\n'] rep (xs ++ cs) 0 =
      xs ++ replaceAux ['\n', '\n', '\n'] rep cs 0 := by
  induction xs with
  | nil => rfl
  | cons c t ih =>
    have hc : c ≠ '\n' := h c (by simp)
    simp only [List.cons_append, replaceAux, List.append_eq]
    rw [if_neg, ih (fun d hd => h d (by simp [hd]))]
    intro hpre
    rw [List.isPrefixOf_cons₂] at hpre
    exact hc (by
      have := (Bool.and_eq_true _ _).mp hpre |>.1
      exact (beq_iff_eq.mp this).symm)

theorem replaceAux_join_id (rep : List Char) (L : List (List Char))
    (h : ∀ x ∈ L, x ≠ [] ∧ ∀ c ∈ x, c ≠ '\n') :
    replaceAux ['\n', '\n', '\n'] rep (joinLines L) 0 = joinLines L := by
  induction L with
  | nil => rfl
  | cons a L' ih =>
    cases L' with
    | nil =>
      have h2 := replaceAux_nl_skip rep a []
        (fun c hc => (h a (by simp)).2 c hc)
      show replaceAux ['\n', '\n', '\n'] rep a 0 = a
      simpa [replaceAux] using h2
    | cons b L'' =>
      show replaceAux ['\n', '\n', '\n'] rep
        (a ++ '\n' :: joinLines (b :: L'')) 0 = a ++ '\n' :: joinLines (b :: L'')
      rw [replaceAux_nl_skip rep a _ (fun c hc => (h a (by simp)).2 c hc)]
      have hb := h b (by simp)
      rcases hbe : b with _ | ⟨c1, t1⟩
      · exact absurd hbe hb.1
      · obtain ⟨u, hu⟩ := joinLines_cons_head L'' c1 t1
        have hc1 : c1 ≠ '\n' := hb.2 c1 (by rw [hbe]; simp)
        have hih : replaceAux ['\n', '\n', '\n'] rep
            (joinLines ((c1 :: t1) :: L'')) 0 = joinLines ((c1 :: t1) :: L'') := by
          rw [← hbe]
          exact ih (fun x hx => h x (by simp [hx]))
        congr 1
        simp only [replaceAux]
        rw [if_neg, hih]
        intro hpre
        rw [hu] at hpre
        rw [List.isPrefixOf_cons₂, List.isPrefixOf_cons₂] at hpre
        have h1 := (Bool.and_eq_true _ _).mp hpre |>.2
        have h2 := (Bool.and_eq_true _ _).mp h1 |>.1
        exact hc1 (beq_iff_eq.mp h2).symm

theorem joinLines_head_mem (L : List (List Char)) (hne : ∀ x ∈ L, x ≠ [])
    (c : Char) (h : (joinLines L).head? = some c) :
    ∃ x ∈ L, x.head? = some c := by
  cases L with
  | nil => exact absurd h (by simp [joinLines])
  | cons a L' =>
    cases L' with
    | nil => exact ⟨a, by simp, h⟩
    | cons b L'' =>
      refine ⟨a, by simp, ?_⟩
      rw [show joinLines (a :: b :: L'') =
        a ++ '\n' :: joinLines (b :: L'') from rfl] at h
      rw [List.head?_append] at h
      rcases ha : a.head? with _ | c0
      · exact absurd (List.head?_eq_none_iff.mp ha) (hne a (by simp))
      · rw [ha] at h
        simpa using h

theorem joinLines_getLast_mem (L : List (List Char))
    (hne : ∀ x ∈ L, x ≠ []) (c : Char)
    (h : (joinLines L).getLast? = some c) :
    ∃ x ∈ L, x.getLast? = some c := by
  induction L with
  | nil => exact absurd h (by simp [joinLines])
  | cons a L' ih =>
    cases L' with
    | nil => exact ⟨a, by simp, h⟩
    | cons b L'' =>
      rw [show joinLines (a :: b :: L'') =
        a ++ '\n' :: joinLines (b :: L'') from rfl,
        List.getLast?_append] at h
      have hb := hne b (by simp)
      rcases hbe : b with _ | ⟨c1, t1⟩
      · exact absurd hbe hb
      · obtain ⟨u, hu⟩ := joinLines_cons_head L'' c1 t1
        rw [hbe, hu, List.getLast?_cons_cons] at h
        rcases hg : (c1 :: u).getLast? with _ | d
        · exact absurd (List.getLast?_eq_none_iff.mp hg) (by simp)
        · rw [hg] at h
          simp only [Option.or_some, Option.some.injEq] at h
          obtain ⟨x, hx, hxl⟩ := ih (fun y hy => hne y (by simp [hy]))
            (by rw [hbe, hu]; rw [hg, h])
          refine ⟨x, ?_, hxl⟩
          rw [hbe] at hx
          exact List.mem_cons_of_mem a hx

theorem rustTrim_id (l : List Char)
    (hh : ∀ c, l.head? = some c → isWS c = false)
    (hl : ∀ c, l.getLast? = some c → isWS c = false) :
    rustTrim l = l := by
  have h1 : trimL l = l := by
    cases l with
    | nil => rfl
    | cons c t =>
      exact List.dropWhile_cons_of_neg (by simp [hh c rfl])
  show trimR (trimL l) = l
  rw [h1]
  rcases List.eq_nil_or_concat l with rfl | ⟨ys, y, rfl⟩
  · rfl
  · rw [List.concat_eq_append] at hl ⊢
    have hy : isWS y = false := hl y (List.getLast?_concat ys)
    show ((ys ++ [y]).reverse.dropWhile isWS).reverse = ys ++ [y]
    rw [List.reverse_append]
    simp only [List.reverse_cons, List.reverse_nil, List.nil_append,
      List.singleton_append]
    rw [List.dropWhile_cons_of_neg (by simp [hy])]
    simp

theorem selectedTags_ok (t : String) (ht : t ∈ selectedTags) :
    t ≠ "" ∧ ∀ c ∈ t.data, isTagChar c = true := by
  simp only [selectedTags, List.mem_cons, List.not_mem_nil, or_false] at ht
  rcases ht with rfl|rfl|rfl|rfl|rfl|rfl|rfl|rfl|rfl|rfl <;>
    exact ⟨by decide, by decide⟩

theorem selectedTags_contains (t : String) (ht : t ∈ selectedTags) :
    selectedTags.contains t = true := by
  simp only [selectedTags, List.mem_cons, List.not_mem_nil, or_false] at ht
  rcases ht with rfl|rfl|rfl|rfl|rfl|rfl|rfl|rfl|rfl|rfl <;> rfl

theorem renderData_length (l : List (String × String)) :
    2 * l.length ≤ (renderData l).length := by
  induction l with
  | nil => simp [renderData]
  | cons e rest ih =>
    simp only [renderData, List.length_cons, List.length_append]
    omega

theorem cleanPieces_map (fuel : Nat) (hf : 1 ≤ fuel) :
    ∀ (l : List (String × String)),
    cleanPieces fuel (l.map (fun e =>
        (e.1, if e.2 = "" then [] else [Node.text e.2]))) =
      (l.filterMap (fun e =>
        if rustTrim e.2.data = [] then none
        else some (fmtElem e.1 (rustTrim e.2.data)))).flatten := by
  intro l
  induction l with
  | nil => rfl
  | cons e rest ih =>
    simp only [cleanPieces, List.map_cons, List.filterMap_cons] at ih ⊢
    rw [textOfNodes_kids fuel hf e.2]
    by_cases h : rustTrim e.2.data = []
    · rw [if_pos h]
      exact ih
    · rw [if_neg h]
      exact congrArg (fun z => fmtElem e.1 (rustTrim e.2.data) ++ z) ih

theorem M_good (l : List (String × String))
    (hl : ∀ e ∈ l, ∀ c ∈ e.2.data, c ≠ '\n' ∧ c ≠ '\r')
    (x : List Char)
    (hx : x ∈ l.filterMap (fun e =>
        if rustTrim e.2.data = [] then none
        else some (fmtLine e.1 (rustTrim e.2.data)))) :
    x ≠ [] ∧ (∀ c ∈ x, c ≠ '\n' ∧ c ≠ '\r') ∧
      (∀ c, x.head? = some c → isWS c = false) ∧
      (∀ c, x.getLast? = some c → isWS c = false) := by
  rw [List.mem_filterMap] at hx
  obtain ⟨e, he, hex⟩ := hx
  by_cases h0 : rustTrim e.2.data = []
  · rw [if_pos h0] at hex
    exact absurd hex (by simp)
  · rw [if_neg h0] at hex
    simp only [Option.some.injEq] at hex
    rcases htr : rustTrim e.2.data with _ | ⟨c0, t0⟩
    · exact absurd htr h0
    · rw [htr] at hex
      subst hex
      have hc0 : isWS c0 = false := rustTrim_head_false e.2.data c0 t0 htr
      refine ⟨fmtLine_ne_nil e.1 c0 t0, ?_, ?_, ?_⟩
      · intro c hc
        rcases fmtLine_mem e.1 (c0 :: t0) c hc with h | h | h | h
        · exact hl e he c (mem_rustTrim e.2.data c (by rw [htr]; exact h))
        · subst h
          exact ⟨by decide, by decide⟩
        · subst h
          exact ⟨by decide, by decide⟩
        · subst h
          exact ⟨by decide, by decide⟩
      · exact fmtLine_head_false e.1 c0 t0 hc0
      · exact fmtLine_getLast_false e.1 c0 t0
          (fun c hc => rustTrim_getLast_false e.2.data c (by rw [htr]; exact hc))

theorem elemLines_mem (tag : String) (t x : List Char)
    (h : x ∈ elemLines tag t) : x = [] ∨ x = fmtLine tag t := by
  simp only [elemLines] at h
  by_cases h1 : tag = "li"
  · rw [if_pos h1] at h
    simp only [List.mem_singleton] at h
    exact Or.inr h
  · rw [if_neg h1] at h
    by_cases h2 : tag.data.head? = some 'h'
    · rw [if_pos h2] at h
      simp only [List.mem_cons] at h
      rcases h with h | h | h
      · exact Or.inl h
      · exact Or.inr h
      · exact absurd h (by simp)
    · rw [if_neg h2] at h
      simp only [List.mem_singleton] at h
      exact Or.inr h

theorem fmtLine_chars (e : String × String)
    (hl2 : ∀ c ∈ e.2.data, c ≠ '\n' ∧ c ≠ '\r') (c : Char)
    (hc : c ∈ fmtLine e.1 (rustTrim e.2.data)) : c ≠ '\n' ∧ c ≠ '\r' := by
  rcases fmtLine_mem e.1 (rustTrim e.2.data) c hc with h | h | h | h
  · exact hl2 c (mem_rustTrim e.2.data c h)
  · subst h
    exact ⟨by decide, by decide⟩
  · subst h
    exact ⟨by decide, by decide⟩
  · subst h
    exact ⟨by decide, by decide⟩

theorem B_chars (l : List (String × String))
    (hl : ∀ e ∈ l, ∀ c ∈ e.2.data, c ≠ '\n' ∧ c ≠ '\r') :
    ∀ x ∈ (l.filterMap (fun e =>
        if rustTrim e.2.data = [] then none
        else some (elemLines e.1 (rustTrim e.2.data)))).flatten,
      ∀ c ∈ x, c ≠ '\n' ∧ c ≠ '\r' := by
  intro x hx c hc
  rw [List.mem_flatten] at hx
  obtain ⟨L', hL', hxL⟩ := hx
  rw [List.mem_filterMap] at hL'
  obtain ⟨e, he, hee⟩ := hL'
  by_cases h0 : rustTrim e.2.data = []
  · rw [if_pos h0] at hee
    exact absurd hee (by simp)
  · rw [if_neg h0] at hee
    simp only [Option.some.injEq] at hee
    subst hee
    rcases elemLines_mem e.1 (rustTrim e.2.data) x hxL with h | h
    · subst h
      exact absurd hc (by simp)
    · subst h
      exact fmtLine_chars e (hl e he) c hc

theorem filterMap_fmt_eq (l : List (String × String)) :
    l.filterMap (fun e =>
      if rustTrim e.2.data = [] then none
      else some (fmtElem e.1 (rustTrim e.2.data))) =
    (l.filterMap (fun e =>
      if rustTrim e.2.data = [] then none
      else some (elemLines e.1 (rustTrim e.2.data)))).map
        (fun x => x.flatMap (fun y => y ++ ['\n'])) := by
  rw [List.map_filterMap]
  apply List.filterMap_congr
  intro e he
  by_cases h : rustTrim e.2.data = []
  · rw [if_pos h, if_pos h]
    rfl
  · rw [if_neg h, if_neg h]
    simp only [Option.map_some']
    rw [fmtElem_eq]

theorem clean_renderFlat (l : List (String × String))
    (hl : ∀ e ∈ l, e.1 ∈ selectedTags ∧
      ∀ c ∈ e.2.data, c ≠ '<' ∧ c ≠ '&' ∧ c ≠ '\n' ∧ c ≠ '\r') :
    clean_html_content (renderFlat l) =
      String.mk (joinLines (l.filterMap (fun e =>
        if rustTrim e.2.data = [] then none
        else some (fmtLine e.1 (rustTrim e.2.data))))) := by
  cases l with
  | nil => rfl
  | cons e0 rest =>
    have hne : renderFlat (e0 :: rest) ≠ "" := by
      intro heq
      have h2 := congrArg String.data heq
      simp [renderFlat, renderData] at h2
    simp only [clean_html_content, if_neg hne]
    have hchars : ∀ e ∈ e0 :: rest, ∀ c ∈ e.2.data, c ≠ '\n' ∧ c ≠ '\r' :=
      fun e he c hc => ⟨((hl e he).2 c hc).2.2.1, ((hl e he).2 c hc).2.2.2⟩
    have hlen : (renderFlat (e0 :: rest)).length =
        (renderData (e0 :: rest)).length := rfl
    have hparse : parseFragment (renderFlat (e0 :: rest)) =
        (e0 :: rest).map mkNode := by
      simp only [parseFragment, hlen]
      rw [show (renderFlat (e0 :: rest)).data = renderData (e0 :: rest) from rfl]
      rw [parse_renderData (e0 :: rest) ((renderData (e0 :: rest)).length + 2)
        (by have := renderData_length (e0 :: rest); simp at this ⊢; omega)
        (fun e he => ⟨(selectedTags_ok e.1 (hl e he).1).1,
          (selectedTags_ok e.1 (hl e he).1).2,
          fun c hc => ((hl e he).2 c hc).1⟩)]
    rw [hparse]
    rw [elemsOf_mkNodes (e0 :: rest) ((renderFlat (e0 :: rest)).length + 1)
      (by rw [hlen]; have := renderData_length (e0 :: rest); omega)]
    have hsel : ∀ x ∈ (e0 :: rest).map (fun e =>
        (e.1, if e.2 = "" then [] else [Node.text e.2])),
        selectedTags.contains x.1 = true := by
      intro x hx
      rw [List.mem_map] at hx
      obtain ⟨e, he, hee⟩ := hx
      subst hee
      exact selectedTags_contains e.1 (hl e he).1
    rw [List.filter_eq_self.mpr hsel]
    rw [cleanPieces_map ((renderFlat (e0 :: rest)).length + 1) (by omega)
      (e0 :: rest)]
    rw [filterMap_fmt_eq (e0 :: rest)]
    rw [flatten_map_flatMap]
    simp only [tidyLines, rustReplace]
    rw [rustLinesCore_flatMap _ (B_chars (e0 :: rest) hchars)]
    rw [lines_of_elements (e0 :: rest)]
    have hM := M_good (e0 :: rest) hchars
    rw [replaceAux_join_id ('\n' :: ['\n']) _
      (fun x hx => ⟨(hM x hx).1, fun c hc => ((hM x hx).2.1 c hc).1⟩)]
    rw [rustTrim_id _
      (fun c hc => by
        obtain ⟨x, hx, hxh⟩ := joinLines_head_mem _
          (fun x hx => (hM x hx).1) c hc
        exact (hM x hx).2.2.1 c hxh)
      (fun c hc => by
        obtain ⟨x, hx, hxl⟩ := joinLines_getLast_mem _
          (fun x hx => (hM x hx).1) c hc
        exact (hM x hx).2.2.2 c hxl)]

/-- Claim C4 (amended): over flat HTML fragments built solely from the
selected elements (`p`, `div`, `li`, `span`, `h1`-`h6`) whose text content is
free of markup, entities, newlines and carriage returns, `clean_html_content`
produces exactly one non-empty output line per element whose trimmed text is
non-empty, in document order — `li` lines prefixed with a bullet, heading
lines wrapped in double-asterisk markers — joined by single newlines; the
output's `lines()` decomposition is exactly that per-element line list; and
cleaning the empty string yields the empty string.  (The original claim's
"one line per element" fails when an element's text itself contains a
newline, see the counterexample.) -/
theorem C4_one_line_per_element_amended (l : List (String × String))
    (hl : ∀ e ∈ l, e.1 ∈ selectedTags ∧
      ∀ c ∈ e.2.data, c ≠ '<' ∧ c ≠ '&' ∧ c ≠ '\n' ∧ c ≠ '\r') :
    (clean_html_content (renderFlat l) =
      String.mk (joinLines (l.filterMap (fun e =>
        if rustTrim e.2.data = [] then none
        else some (fmtLine e.1 (rustTrim e.2.data))))) ∧
     rustLinesCore (joinLines (l.filterMap (fun e =>
        if rustTrim e.2.data = [] then none
        else some (fmtLine e.1 (rustTrim e.2.data))))) =
       l.filterMap (fun e =>
        if rustTrim e.2.data = [] then none
        else some (fmtLine e.1 (rustTrim e.2.data)))) ∧
    clean_html_content "" = "" := by
  have hchars : ∀ e ∈ l, ∀ c ∈ e.2.data, c ≠ '\n' ∧ c ≠ '\r' :=
    fun e he c hc => ⟨((hl e he).2 c hc).2.2.1, ((hl e he).2 c hc).2.2.2⟩
  refine ⟨⟨clean_renderFlat l hl, ?_⟩, rfl⟩
  exact lines_joinLines _ (fun x hx =>
    ⟨(M_good l hchars x hx).1, (M_good l hchars x hx).2.1⟩)

/-- Claim C4 witness: the flat fragment
`<p>a</p><li>b</li><h2>c</h2><span> </span>` cleans to `a\n• b\n**c**` —
one line per element with non-blank trimmed text, the blank `span` dropped,
the bullet and heading markers in place. -/
theorem C4_one_line_per_element_witness :
    ((clean_html_content (renderFlat flatC4) =
      String.mk (joinLines (flatC4.filterMap (fun e =>
        if rustTrim e.2.data = [] then none
        else some (fmtLine e.1 (rustTrim e.2.data))))) ∧
     rustLinesCore (joinLines (flatC4.filterMap (fun e =>
        if rustTrim e.2.data = [] then none
        else some (fmtLine e.1 (rustTrim e.2.data))))) =
       flatC4.filterMap (fun e =>
        if rustTrim e.2.data = [] then none
        else some (fmtLine e.1 (rustTrim e.2.data)))) ∧
    clean_html_content "" = "") ∧
    clean_html_content (renderFlat flatC4) = "a\n• b\n**c**" :=
  ⟨C4_one_line_per_element_amended flatC4 (by decide), rfl⟩

/-- Claim C4 counterexample: the fragment `<p>a\nb</p>` is composed of a
single selected element with (non-empty) text content, yet
`clean_html_content` returns `a\nb`, which spans two lines — the claim's
"one non-empty output line per non-empty element" fails because an embedded
newline in the element text survives cleaning. -/
theorem C4_one_line_per_element_counterexample :
    clean_html_content "<p>a\nb</p>" = "a\nb" ∧
    (rustLinesCore ("a\nb").data).length = 2 ∧
    ((elemsOf (("<p>a\nb</p>").length + 1) (parseFragment "<p>a\nb</p>")).filter
      (fun e => selectedTags.contains e.1)).length = 1 :=
  ⟨rfl, rfl, rfl⟩

end Bakery
